import Mathlib

/-!
# cable_common.c : dispatch layer and generic bit-bang transfer routines

A shallow embedding of `src/cable_common.c` (adv_jtag_bridge cable layer).

* `uint8_t` / `uint32_t` values are natural numbers, reduced `% 256` / `% 2 ^ 32`
  at the places where the C code converts to the narrower type.
* `int` result codes are integers, combined with `Int.lor` (the C `|=`).
* The driver behind `jtag_cables` carries hidden state; it is a record of
  state-passing functions over a state type `σ`.
* `uint32_t *` buffers are lists of words read and written through
  `Option`-returning accessors, so an access outside the buffer makes the
  routine return `none`.
-/

namespace CableCommon

/-! ## Constants of the missing headers -/

/-- The packet flags (`TDO`, `TMS`, `TRST`) and Signal-Word bits (`*_BIT`) that
`cable_common.h` defines.  The header is not part of the sources at hand, so the
seven constants are parameters of the embedding. -/
structure Consts where
  TDO : Nat
  TMS : Nat
  TRST : Nat
  TCLK_BIT : Nat
  TRST_BIT : Nat
  TDI_BIT : Nat
  TMS_BIT : Nat
  deriving Repr, DecidableEq

/-- Modelled from the spec: `errcodes.h` is missing; section 6 says that a zero
value denotes success, so the "no error" code is `0`. -/
def APP_ERR_NONE : Int := 0

/-- Meaning of `x >> k` for a 32-bit unsigned `x` and an `int` count `k`.
C defines the result only for `0 ≤ k < 32` (`shr_def`); outside that range the
result is whatever the platform yields. -/
structure ShiftModel where
  shr : Nat → Int → Nat
  shr_def : ∀ (x : Nat) (k : Int), 0 ≤ k → k < 32 → shr x k = x >>> k.toNat

/-- A platform on which an oversized shift yields the arithmetic value
`x / 2 ^ k` (so `0` for a 32-bit `x` once `k ≥ 32`). -/
def shiftArith : ShiftModel where
  shr := fun x k => x >>> k.toNat
  shr_def := fun _ _ _ _ => rfl

/-- A platform on which the shift count is reduced modulo 32 before shifting, as the
32-bit shift instructions of x86 do. -/
def shiftMasked : ShiftModel where
  shr := fun x k => x >>> (k % 32).toNat
  shr_def := fun x k h0 h1 => by
    have h : k % 32 = k := Int.emod_eq_of_lt h0 h1
    simp [h]

/-! ## The driver descriptor -/

/-- The fields of `jtag_cable_t` that `cable_common.c` calls through
`jtag_cables`.  Every function threads the driver state `σ`.  A function with a
`uint8_t *bit_in` parameter takes the byte stored there before the call and
returns the byte stored there after it.  `flush_func` may be `NULL` (`none`). -/
structure jtag_cable_t (σ : Type) where
  inout_func : Nat → Nat → σ → (Int × Nat) × σ
  out_func : Nat → σ → Int × σ
  bit_out_func : Nat → σ → Int × σ
  bit_inout_func : Nat → Nat → σ → (Int × Nat) × σ
  flush_func : Option (σ → Int × σ)

/-! ## Cable API functions (dispatch) -/

/-- The C function `cable_write_bit`: forwards to `bit_out_func`. -/
def cable_write_bit {σ : Type} (d : jtag_cable_t σ) (packet : Nat) (s : σ) : Int × σ :=
  d.bit_out_func packet s

/-- The C function `cable_read_write_bit`: forwards to `bit_inout_func`. -/
def cable_read_write_bit {σ : Type} (d : jtag_cable_t σ) (packet_out : Nat) (bit_in : Nat)
    (s : σ) : (Int × Nat) × σ :=
  d.bit_inout_func packet_out bit_in s

/-- The C function `cable_flush`: calls `flush_func` when it is not `NULL`,
otherwise returns `APP_ERR_NONE`. -/
def cable_flush {σ : Type} (d : jtag_cable_t σ) (s : σ) : Int × σ :=
  match d.flush_func with
  | some f => f s
  | none => (APP_ERR_NONE, s)

/-! ## Common bit-level functions -/

/-- The C function `cable_common_write_bit`.  `data` is a `uint8_t`; the
statement `data &= ~TRST_BIT` clears in `data` the bits of `TRST_BIT`, which on
a byte is the conjunction with the 8-bit complement of `TRST_BIT`. -/
def cable_common_write_bit {σ : Type} (C : Consts) (d : jtag_cable_t σ) (packet : Nat)
    (s : σ) : Int × σ :=
  let data : Nat := C.TRST_BIT % 256
  let err : Int := APP_ERR_NONE
  let data := if packet &&& C.TDO ≠ 0 then (data ||| C.TDI_BIT) % 256 else data
  let data := if packet &&& C.TMS ≠ 0 then (data ||| C.TMS_BIT) % 256 else data
  let data := if packet &&& C.TRST ≠ 0 then data &&& (0xFF ^^^ (C.TRST_BIT % 256)) else data
  let r1 := d.out_func data s
  let err := Int.lor err r1.1
  let r2 := d.out_func ((data ||| C.TCLK_BIT) % 256) r1.2
  let err := Int.lor err r2.1
  (err, r2.2)

/-- The C function `cable_common_read_write_bit`.  Returns the result code and
the byte left in `*bit_in`. -/
def cable_common_read_write_bit {σ : Type} (C : Consts) (d : jtag_cable_t σ) (packet_out : Nat)
    (bit_in : Nat) (s : σ) : (Int × Nat) × σ :=
  let data : Nat := C.TRST_BIT % 256
  let err : Int := APP_ERR_NONE
  let data := if packet_out &&& C.TDO ≠ 0 then (data ||| C.TDI_BIT) % 256 else data
  let data := if packet_out &&& C.TMS ≠ 0 then (data ||| C.TMS_BIT) % 256 else data
  let data := if packet_out &&& C.TRST ≠ 0 then data &&& (0xFF ^^^ (C.TRST_BIT % 256)) else data
  let r1 := d.out_func data s
  let err := Int.lor err r1.1
  let r2 := d.inout_func ((data ||| C.TCLK_BIT) % 256) bit_in r1.2
  let err := Int.lor err r2.1.1
  ((err, r2.1.2), r2.2)

/-! ## Common stream-level functions -/

/-- Loop variables of `cable_common_write_stream`, with the driver state. -/
structure WState (σ : Type) where
  index : Nat
  bits_this_index : Nat
  err : Int
  drv : σ

/-- One pass through the body of the `for` loop of `cable_common_write_stream`. -/
def write_stream_body {σ : Type} (P : ShiftModel) (d : jtag_cable_t σ) (stream : List Nat)
    (st : WState σ) : Option (WState σ) :=
  match stream[st.index]? with
  | none => none
  | some w =>
    let out : Nat := P.shr w (st.bits_this_index : Int) &&& 1
    let r := cable_write_bit d out st.drv
    let err := Int.lor st.err r.1
    let bits_this_index := st.bits_this_index + 1
    if bits_this_index ≥ 32 then
      some { index := st.index + 1, bits_this_index := 0, err := err, drv := r.2 }
    else
      some { index := st.index, bits_this_index := bits_this_index, err := err, drv := r.2 }

/-- The `for` loop of `cable_common_write_stream`, run for a given number of passes. -/
def write_stream_loop {σ : Type} (P : ShiftModel) (d : jtag_cable_t σ) (stream : List Nat) :
    Nat → WState σ → Option (WState σ)
  | 0, st => some st
  | k + 1, st =>
    match write_stream_body P d stream st with
    | none => none
    | some st1 => write_stream_loop P d stream k st1

/-- The C function `cable_common_write_stream`.  The loop `for(i = 0; i < len_bits - 1; i++)`
makes `(len_bits - 1).toNat` passes.  `out` is a `uint8_t`, so `out |= TMS` is reduced
to a byte. -/
def cable_common_write_stream {σ : Type} (P : ShiftModel) (C : Consts) (d : jtag_cable_t σ)
    (stream : List Nat) (len_bits : Int) (set_last_bit : Int) (s : σ) : Option (Int × σ) :=
  match write_stream_loop P d stream (len_bits - 1).toNat
      { index := 0, bits_this_index := 0, err := APP_ERR_NONE, drv := s } with
  | none => none
  | some st =>
    match stream[st.index]? with
    | none => none
    | some w =>
      let out : Nat := P.shr w (len_bits - 1) &&& 0x1
      let out := if set_last_bit ≠ 0 then (out ||| C.TMS) % 256 else out
      let r := cable_write_bit d out st.drv
      some (Int.lor st.err r.1, r.2)

/-- Store to a word of a buffer; `none` when the index is outside it. -/
def store (buf : List Nat) (i : Nat) (v : Nat) : Option (List Nat) :=
  if i < buf.length then some (buf.set i v) else none

/-- Loop variables of `cable_common_read_stream`, with the local `inval`, the
buffer `instream` and the driver state. -/
structure RState (σ : Type) where
  index : Nat
  bits_this_index : Nat
  inval : Nat
  err : Int
  instream : List Nat
  drv : σ

/-- The statement `instream[index] |= (inval << bits_this_index)`: the shifted
`int` is converted to `uint32_t`. -/
def or_into (instream : List Nat) (index : Nat) (inval : Nat) (bits_this_index : Nat) :
    Option (List Nat) :=
  match instream[index]? with
  | none => none
  | some w => store instream index (w ||| ((inval <<< bits_this_index) % 2 ^ 32))

/-- One pass through the body of the `for` loop of `cable_common_read_stream`. -/
def read_stream_body {σ : Type} (P : ShiftModel) (d : jtag_cable_t σ) (outstream : List Nat)
    (st : RState σ) : Option (RState σ) :=
  match outstream[st.index]? with
  | none => none
  | some w =>
    let outval : Nat := P.shr w (st.bits_this_index : Int) &&& 0x1
    let r := cable_read_write_bit d outval st.inval st.drv
    let err := Int.lor st.err r.1.1
    let inval := r.1.2
    match or_into st.instream st.index inval st.bits_this_index with
    | none => none
    | some ins1 =>
      let bits_this_index := st.bits_this_index + 1
      if bits_this_index ≥ 32 then
        match store ins1 (st.index + 1) 0 with
        | none => none
        | some ins2 =>
          some { index := st.index + 1, bits_this_index := 0, inval := inval, err := err,
                 instream := ins2, drv := r.2 }
      else
        some { index := st.index, bits_this_index := bits_this_index, inval := inval,
               err := err, instream := ins1, drv := r.2 }

/-- The `for` loop of `cable_common_read_stream`, run for a given number of passes. -/
def read_stream_loop {σ : Type} (P : ShiftModel) (d : jtag_cable_t σ) (outstream : List Nat) :
    Nat → RState σ → Option (RState σ)
  | 0, st => some st
  | k + 1, st =>
    match read_stream_body P d outstream st with
    | none => none
    | some st1 => read_stream_loop P d outstream k st1

/-- The C function `cable_common_read_stream`.  `outstream` and `instream` are
separate buffers; `inval0` is the indeterminate initial content of the local
`inval`.  Returns the result code and the final `instream`. -/
def cable_common_read_stream {σ : Type} (P : ShiftModel) (C : Consts) (d : jtag_cable_t σ)
    (outstream : List Nat) (instream : List Nat) (len_bits : Int) (set_last_bit : Int)
    (inval0 : Nat) (s : σ) : Option ((Int × List Nat) × σ) :=
  match store instream 0 0 with
  | none => none
  | some ins0 =>
    match read_stream_loop P d outstream (len_bits - 1).toNat
        { index := 0, bits_this_index := 0, inval := inval0, err := APP_ERR_NONE,
          instream := ins0, drv := s } with
    | none => none
    | some st =>
      match outstream[st.index]? with
      | none => none
      | some w =>
        let outval : Nat :=
          if set_last_bit ≠ 0 then ((P.shr w (len_bits - 1) &&& 1) ||| C.TMS) % 256
          else P.shr w (len_bits - 1) &&& 1
        let r := cable_read_write_bit d outval st.inval st.drv
        let err := Int.lor st.err r.1.1
        match or_into st.instream st.index r.1.2 st.bits_this_index with
        | none => none
        | some ins1 => some ((err, ins1), r.2)

/-! ## A recording driver -/

/-- A call made through the driver descriptor. -/
inductive Call where
  | out (w : Nat)
  | inout (w : Nat)
  | bit_out (packet : Nat)
  | bit_inout (packet : Nat)
  | flush
  deriving Repr, DecidableEq

/-- Behaviour of a driver as a function of the calls made so far, the current
call included: the result code it returns and, for the two sampling functions,
the byte it stores through `bit_in`. -/
structure Responses where
  ret : List Call → Int
  bit : List Call → Nat

/-- The driver that appends each call to its state (the list of calls so far)
and answers as `R` prescribes.  Its `flush_func` is present. -/
def recorder (R : Responses) : jtag_cable_t (List Call) where
  inout_func := fun w _ h => ((R.ret (h ++ [Call.inout w]), R.bit (h ++ [Call.inout w])),
    h ++ [Call.inout w])
  out_func := fun w h => (R.ret (h ++ [Call.out w]), h ++ [Call.out w])
  bit_out_func := fun p h => (R.ret (h ++ [Call.bit_out p]), h ++ [Call.bit_out p])
  bit_inout_func := fun p _ h =>
    ((R.ret (h ++ [Call.bit_inout p]), R.bit (h ++ [Call.bit_inout p])),
      h ++ [Call.bit_inout p])
  flush_func := some (fun h => (R.ret (h ++ [Call.flush]), h ++ [Call.flush]))

/-- A concrete choice of the seven constants (distinct single bits, data flag `0x01`),
used for concrete instances only. -/
def stdConsts : Consts :=
  { TDO := 0x01, TMS := 0x02, TRST := 0x04,
    TCLK_BIT := 0x01, TRST_BIT := 0x02, TDI_BIT := 0x04, TMS_BIT := 0x08 }

/-- All result codes zero, every sampled byte zero. -/
def quiet : Responses := { ret := fun _ => 0, bit := fun _ => 0 }

/-- The echo driver: every result code is zero and the byte stored through `bit_in`
is the data flag (bit 0) of the packet of the call just made. -/
def echo : Responses :=
  { ret := fun _ => 0
    bit := fun h => match h.getLast? with
      | some (Call.bit_inout p) => p &&& 1
      | _ => 0 }

/-! ## Auxiliary definitions used in the statements -/

/-- A single bit of a byte. -/
def IsByteBit (x : Nat) : Prop := x ∈ [1, 2, 4, 8, 16, 32, 64, 128]

instance (x : Nat) : Decidable (IsByteBit x) := by unfold IsByteBit; infer_instance

/-- The four Signal-Word bits are single bits of a byte, pairwise distinct. -/
def SignalBits (C : Consts) : Prop :=
  IsByteBit C.TCLK_BIT ∧ IsByteBit C.TDI_BIT ∧ IsByteBit C.TMS_BIT ∧ IsByteBit C.TRST_BIT ∧
    C.TCLK_BIT ≠ C.TDI_BIT ∧ C.TCLK_BIT ≠ C.TMS_BIT ∧ C.TCLK_BIT ≠ C.TRST_BIT ∧
    C.TDI_BIT ≠ C.TMS_BIT ∧ C.TDI_BIT ≠ C.TRST_BIT ∧ C.TMS_BIT ≠ C.TRST_BIT

instance (C : Consts) : Decidable (SignalBits C) := by unfold SignalBits; infer_instance

/-- The byte `data` of `cable_common_write_bit` and `cable_common_read_write_bit`
after the three conditional statements (the same statements, in the same order). -/
def flag_data (C : Consts) (packet : Nat) : Nat :=
  let data : Nat := C.TRST_BIT % 256
  let data := if packet &&& C.TDO ≠ 0 then (data ||| C.TDI_BIT) % 256 else data
  let data := if packet &&& C.TMS ≠ 0 then (data ||| C.TMS_BIT) % 256 else data
  let data := if packet &&& C.TRST ≠ 0 then data &&& (0xFF ^^^ (C.TRST_BIT % 256)) else data
  data

/-- Closed form of the clock-low Signal Word: `TDI_BIT` when the packet has
`TDO`, `TMS_BIT` when it has `TMS`, `TRST_BIT` when it lacks `TRST`. -/
def signal_word (C : Consts) (packet : Nat) : Nat :=
  ((if packet &&& C.TDO ≠ 0 then C.TDI_BIT else 0) |||
    (if packet &&& C.TMS ≠ 0 then C.TMS_BIT else 0)) |||
    (if packet &&& C.TRST = 0 then C.TRST_BIT else 0)

/-- Bit `i` of a word-chained stream, as `0` or `1`: bit `i % 32` of word `i / 32`
(`0` past the end of the buffer). -/
def stream_bit (stream : List Nat) (i : Nat) : Nat :=
  (stream.getD (i / 32) 0 >>> (i % 32)) &&& 1

/-- The packet of the final transfer, as the code computes it: word `(n - 1) / 32`
shifted by `len_bits - 1`, with `TMS` merged in on request. -/
def last_packet (P : ShiftModel) (C : Consts) (stream : List Nat) (n : Nat) (set_last_bit : Int) :
    Nat :=
  if set_last_bit ≠ 0 then
    ((P.shr (stream.getD ((n - 1) / 32) 0) ((n : Int) - 1) &&& 1) ||| C.TMS) % 256
  else P.shr (stream.getD ((n - 1) / 32) 0) ((n : Int) - 1) &&& 1

/-- The packets of a stream transfer of `n ≥ 1` bits, in order. -/
def stream_packets (P : ShiftModel) (C : Consts) (stream : List Nat) (n : Nat)
    (set_last_bit : Int) : List Nat :=
  (List.range (n - 1)).map (stream_bit stream) ++ [last_packet P C stream n set_last_bit]

/-- Result code and driver state after the bit-write calls for `ps`, the result
codes being accumulated with `|=`. -/
def feed_out {σ : Type} (d : jtag_cable_t σ) (ps : List Nat) (acc : Int × σ) : Int × σ :=
  ps.foldl (fun a p => (Int.lor a.1 (cable_write_bit d p a.2).1, (cable_write_bit d p a.2).2)) acc

/-- Accumulated effect of a run of bit read-write calls: result code, content of
`inval`, the bytes stored through `bit_in` so far (oldest first), driver state. -/
structure Fed (σ : Type) where
  err : Int
  inval : Nat
  samples : List Nat
  drv : σ

/-- Effect of the bit read-write calls for `ps`, the result codes being accumulated
with `|=`. -/
def feed_inout {σ : Type} (d : jtag_cable_t σ) (ps : List Nat) (acc : Fed σ) : Fed σ :=
  ps.foldl (fun a p =>
    { err := Int.lor a.err (cable_read_write_bit d p a.inval a.drv).1.1,
      inval := (cable_read_write_bit d p a.inval a.drv).1.2,
      samples := a.samples ++ [(cable_read_write_bit d p a.inval a.drv).1.2],
      drv := (cable_read_write_bit d p a.inval a.drv).2 }) acc

/-- Words `0 .. K` of `ins` hold exactly the first `m` samples, one per bit, LSB
first and word-chained; every other bit of these words is zero. -/
def Gathered (K m : Nat) (samples ins : List Nat) : Prop :=
  ∀ j, j ≤ K → ∃ w, ins[j]? = some w ∧
    ∀ b, w.testBit b = decide (b < 32 ∧ 32 * j + b < m ∧ samples[32 * j + b]? = some 1)

/-- Result codes returned by the recording driver for the calls `calls` made
after the history `h`. -/
def ret_codes (R : Responses) (h : List Call) (calls : List Call) : List Int :=
  (List.range calls.length).map (fun i => R.ret (h ++ calls.take (i + 1)))

/-- Bytes stored through `bit_in` by the recording driver for the calls `calls` made
after the history `h`. -/
def sampled (R : Responses) (h : List Call) (calls : List Call) : List Nat :=
  (List.range calls.length).map (fun i => R.bit (h ++ calls.take (i + 1)))

/-- The descriptor `d` with the generic bit operations installed:
`bit_out_func = cable_common_write_bit`, `bit_inout_func = cable_common_read_write_bit`,
both calling the byte primitives of `d`. -/
def generic_bits {σ : Type} (C : Consts) (d : jtag_cable_t σ) : jtag_cable_t σ :=
  { d with
    bit_out_func := cable_common_write_bit C d
    bit_inout_func := cable_common_read_write_bit C d }

/-- The driver calls of the generic bit operations for the packets `ps`: per packet
the clock-low word through `out_func`, then the clock-high word through `second`
(`Call.out` for a write, `Call.inout` for a read-write). -/
def signal_calls (C : Consts) (second : Nat → Call) : List Nat → List Call
  | [] => []
  | p :: ps =>
    Call.out (flag_data C p) :: second ((flag_data C p ||| C.TCLK_BIT) % 256) ::
      signal_calls C second ps

/-! ## Bit-level lemmas -/

theorem IsByteBit.exists_pow {x : Nat} (h : IsByteBit x) : ∃ k, k < 8 ∧ x = 2 ^ k := by
  unfold IsByteBit at h
  simp only [List.mem_cons, List.mem_singleton, List.not_mem_nil, or_false] at h
  rcases h with h | h | h | h | h | h | h | h
  · exact ⟨0, by decide, h⟩
  · exact ⟨1, by decide, h⟩
  · exact ⟨2, by decide, h⟩
  · exact ⟨3, by decide, h⟩
  · exact ⟨4, by decide, h⟩
  · exact ⟨5, by decide, h⟩
  · exact ⟨6, by decide, h⟩
  · exact ⟨7, by decide, h⟩

theorem testBit_255 (i : Nat) : Nat.testBit 255 i = decide (i < 8) := by
  have := @Nat.testBit_two_pow_sub_one 8 i
  simpa using this

theorem testBit_mod_256 (x i : Nat) : (x % 256).testBit i = (decide (i < 8) && x.testBit i) :=
  Nat.testBit_mod_two_pow x 8 i

theorem and_two_pow_ne_zero (n i : Nat) : n &&& 2 ^ i ≠ 0 ↔ n.testBit i = true := by
  rw [Nat.and_two_pow]
  cases h : n.testBit i <;> simp

theorem write_bit_unfold {σ : Type} (C : Consts) (d : jtag_cable_t σ) (packet : Nat) (s : σ) :
    cable_common_write_bit C d packet s =
      (Int.lor (Int.lor APP_ERR_NONE (d.out_func (flag_data C packet) s).1)
          (d.out_func ((flag_data C packet ||| C.TCLK_BIT) % 256)
            (d.out_func (flag_data C packet) s).2).1,
        (d.out_func ((flag_data C packet ||| C.TCLK_BIT) % 256)
            (d.out_func (flag_data C packet) s).2).2) := rfl

theorem read_write_bit_unfold {σ : Type} (C : Consts) (d : jtag_cable_t σ) (packet : Nat)
    (bit_in : Nat) (s : σ) :
    cable_common_read_write_bit C d packet bit_in s =
      ((Int.lor (Int.lor APP_ERR_NONE (d.out_func (flag_data C packet) s).1)
          (d.inout_func ((flag_data C packet ||| C.TCLK_BIT) % 256) bit_in
            (d.out_func (flag_data C packet) s).2).1.1,
        (d.inout_func ((flag_data C packet ||| C.TCLK_BIT) % 256) bit_in
            (d.out_func (flag_data C packet) s).2).1.2),
        (d.inout_func ((flag_data C packet ||| C.TCLK_BIT) % 256) bit_in
            (d.out_func (flag_data C packet) s).2).2) := rfl

theorem flag_data_eq_signal_word (C : Consts) (hd : IsByteBit C.TDI_BIT)
    (hm : IsByteBit C.TMS_BIT) (hr : IsByteBit C.TRST_BIT) (hdr : C.TDI_BIT ≠ C.TRST_BIT)
    (hmr : C.TMS_BIT ≠ C.TRST_BIT) (packet : Nat) :
    flag_data C packet = signal_word C packet := by
  obtain ⟨a, ha, ea⟩ := hd.exists_pow
  obtain ⟨b, hb, eb⟩ := hm.exists_pow
  obtain ⟨r, hr, er⟩ := hr.exists_pow
  have har : a ≠ r := by rintro rfl; exact hdr (ea.trans er.symm)
  have hbr : b ≠ r := by rintro rfl; exact hmr (eb.trans er.symm)
  unfold flag_data signal_word
  rw [ea, eb, er]
  apply Nat.eq_of_testBit_eq
  intro i
  by_cases h1 : i < 8 <;> by_cases h2 : r = i <;> by_cases h3 : a = i <;> by_cases h4 : b = i <;>
    by_cases x : packet &&& C.TDO = 0 <;> by_cases y : packet &&& C.TMS = 0 <;>
    by_cases z : packet &&& C.TRST = 0 <;>
    simp [testBit_mod_256, Nat.testBit_two_pow, testBit_255, Nat.testBit_xor, h1, h2, h3, h4,
      x, y, z] <;> omega

theorem flag_data_testBit (C : Consts) (a b r : Nat) (ea : C.TDI_BIT = 2 ^ a)
    (eb : C.TMS_BIT = 2 ^ b) (er : C.TRST_BIT = 2 ^ r) (packet i : Nat)
    (h : (flag_data C packet).testBit i = true) : i < 8 ∧ (i = a ∨ i = b ∨ i = r) := by
  unfold flag_data at h
  rw [ea, eb, er] at h
  by_cases h1 : i < 8 <;> by_cases h2 : r = i <;> by_cases h3 : a = i <;> by_cases h4 : b = i <;>
    by_cases x : packet &&& C.TDO = 0 <;> by_cases y : packet &&& C.TMS = 0 <;>
    by_cases z : packet &&& C.TRST = 0 <;>
    simp [testBit_mod_256, Nat.testBit_two_pow, testBit_255, Nat.testBit_xor, h1, h2, h3, h4,
      x, y, z] at h ⊢

theorem clock_bit_facts (w c : Nat) (hw : ∀ i, w.testBit i = true → i < 8 ∧ i ≠ c)
    (hc : c < 8) :
    w &&& 2 ^ c = 0 ∧ (w ||| 2 ^ c) % 256 = w ||| 2 ^ c ∧ (w ||| 2 ^ c) ^^^ w = 2 ^ c := by
  refine ⟨?_, ?_, ?_⟩ <;>
  · apply Nat.eq_of_testBit_eq
    intro i
    have := hw i
    by_cases h1 : i < 8 <;> by_cases h5 : c = i <;> cases hi : w.testBit i <;>
      simp [testBit_mod_256, Nat.testBit_two_pow, h1, h5, hi] at this ⊢ <;> omega

theorem flag_data_clock (C : Consts) (hc : IsByteBit C.TCLK_BIT) (hd : IsByteBit C.TDI_BIT)
    (hm : IsByteBit C.TMS_BIT) (hr : IsByteBit C.TRST_BIT) (hcd : C.TCLK_BIT ≠ C.TDI_BIT)
    (hcm : C.TCLK_BIT ≠ C.TMS_BIT) (hcr : C.TCLK_BIT ≠ C.TRST_BIT) (packet : Nat) :
    flag_data C packet &&& C.TCLK_BIT = 0 ∧
      (flag_data C packet ||| C.TCLK_BIT) % 256 = flag_data C packet ||| C.TCLK_BIT ∧
      (flag_data C packet ||| C.TCLK_BIT) ^^^ flag_data C packet = C.TCLK_BIT := by
  obtain ⟨c, hc, ec⟩ := hc.exists_pow
  obtain ⟨a, _, ea⟩ := hd.exists_pow
  obtain ⟨b, _, eb⟩ := hm.exists_pow
  obtain ⟨r, _, er⟩ := hr.exists_pow
  have hca : c ≠ a := by rintro rfl; exact hcd (ec.trans ea.symm)
  have hcb : c ≠ b := by rintro rfl; exact hcm (ec.trans eb.symm)
  have hcr : c ≠ r := by rintro rfl; exact hcr (ec.trans er.symm)
  rw [ec]
  apply clock_bit_facts _ _ _ hc
  intro i hi
  have := flag_data_testBit C a b r ea eb er packet i hi
  omega

/-- Under `SignalBits`, what the closed form `signal_word` has in each bit. -/
theorem signal_word_bits (C : Consts) (hC : SignalBits C) (packet : Nat) :
    (signal_word C packet &&& C.TDI_BIT ≠ 0 ↔ packet &&& C.TDO ≠ 0) ∧
    (signal_word C packet &&& C.TMS_BIT ≠ 0 ↔ packet &&& C.TMS ≠ 0) ∧
    (signal_word C packet &&& C.TRST_BIT ≠ 0 ↔ packet &&& C.TRST = 0) ∧
    (∀ i, (signal_word C packet).testBit i = true →
      2 ^ i = C.TDI_BIT ∨ 2 ^ i = C.TMS_BIT ∨ 2 ^ i = C.TRST_BIT) := by
  obtain ⟨_, hd, hm, hr, _, _, _, hdm, hdr, hmr⟩ := hC
  obtain ⟨a, _, ea⟩ := hd.exists_pow
  obtain ⟨b, _, eb⟩ := hm.exists_pow
  obtain ⟨r, _, er⟩ := hr.exists_pow
  have hab : a ≠ b := by rintro rfl; exact hdm (ea.trans eb.symm)
  have har : a ≠ r := by rintro rfl; exact hdr (ea.trans er.symm)
  have hbr : b ≠ r := by rintro rfl; exact hmr (eb.trans er.symm)
  unfold signal_word
  rw [ea, eb, er]
  simp only [and_two_pow_ne_zero]
  refine ⟨?_, ?_, ?_, ?_⟩
  · by_cases x : packet &&& C.TDO = 0 <;> by_cases y : packet &&& C.TMS = 0 <;>
      by_cases z : packet &&& C.TRST = 0 <;>
      simp [Nat.testBit_two_pow, x, y, z] <;> omega
  · by_cases x : packet &&& C.TDO = 0 <;> by_cases y : packet &&& C.TMS = 0 <;>
      by_cases z : packet &&& C.TRST = 0 <;>
      simp [Nat.testBit_two_pow, x, y, z] <;> omega
  · by_cases x : packet &&& C.TDO = 0 <;> by_cases y : packet &&& C.TMS = 0 <;>
      by_cases z : packet &&& C.TRST = 0 <;>
      simp [Nat.testBit_two_pow, x, y, z] <;> omega
  · intro i
    by_cases x : packet &&& C.TDO = 0 <;> by_cases y : packet &&& C.TMS = 0 <;>
      by_cases z : packet &&& C.TRST = 0 <;>
      simp [Nat.testBit_two_pow, x, y, z] <;> omega

/-! ## The write loop as a fold over the packets -/

theorem write_stream_loop_succ {σ : Type} (P : ShiftModel) (d : jtag_cable_t σ)
    (stream : List Nat) (k : Nat) (st : WState σ) :
    write_stream_loop P d stream (k + 1) st =
      (write_stream_loop P d stream k st).bind (write_stream_body P d stream) := by
  induction k generalizing st with
  | zero =>
    show write_stream_loop P d stream 1 st = write_stream_body P d stream st
    simp only [write_stream_loop]
    cases write_stream_body P d stream st <;> rfl
  | succ k ih =>
    rw [write_stream_loop]
    cases h : write_stream_body P d stream st with
    | none => simp [write_stream_loop, h]
    | some st1 =>
      simp only []
      rw [ih st1]
      conv_rhs => rw [write_stream_loop, h]

theorem getElem?_eq_getD {l : List Nat} {i : Nat} (h : i < l.length) :
    l[i]? = some (l.getD i 0) := by
  simp [List.getD, List.getElem?_eq_getElem h]

theorem write_stream_body_at {σ : Type} (P : ShiftModel) (d : jtag_cable_t σ)
    (stream : List Nat) (k : Nat) (hk : k < 32 * stream.length) (e : Int) (s : σ) :
    write_stream_body P d stream
        { index := k / 32, bits_this_index := k % 32, err := e, drv := s } =
      some { index := (k + 1) / 32, bits_this_index := (k + 1) % 32,
             err := Int.lor e (cable_write_bit d (stream_bit stream k) s).1,
             drv := (cable_write_bit d (stream_bit stream k) s).2 } := by
  have hi : k / 32 < stream.length := by omega
  have hs : P.shr (stream.getD (k / 32) 0) ((k % 32 : Nat) : Int) =
      stream.getD (k / 32) 0 >>> (k % 32) := by
    rw [P.shr_def _ _ (by omega) (by omega), Int.toNat_ofNat]
  unfold write_stream_body
  simp only [getElem?_eq_getD hi, hs]
  by_cases hb : k % 32 + 1 ≥ 32
  · have h1 : (k + 1) / 32 = k / 32 + 1 := by omega
    have h2 : (k + 1) % 32 = 0 := by omega
    simp [hb, h1, h2, stream_bit]
  · have h1 : (k + 1) / 32 = k / 32 := by omega
    have h2 : (k + 1) % 32 = k % 32 + 1 := by omega
    simp [hb, h1, h2, stream_bit]

theorem write_stream_loop_eq {σ : Type} (P : ShiftModel) (d : jtag_cable_t σ)
    (stream : List Nat) (s : σ) (k : Nat) (hk : k ≤ 32 * stream.length) :
    write_stream_loop P d stream k
        { index := 0, bits_this_index := 0, err := APP_ERR_NONE, drv := s } =
      some { index := k / 32, bits_this_index := k % 32,
             err := (feed_out d ((List.range k).map (stream_bit stream)) (APP_ERR_NONE, s)).1,
             drv := (feed_out d ((List.range k).map (stream_bit stream)) (APP_ERR_NONE, s)).2 } := by
  induction k with
  | zero => simp [write_stream_loop, feed_out]
  | succ k ih =>
    rw [write_stream_loop_succ, ih (by omega)]
    simp only [Option.bind]
    rw [write_stream_body_at P d stream k (by omega)]
    simp [feed_out, List.range_succ, List.foldl_append]

theorem write_stream_eq_feed {σ : Type} (P : ShiftModel) (C : Consts) (d : jtag_cable_t σ)
    (stream : List Nat) (n : Nat) (set_last_bit : Int) (s : σ) (hn : 1 ≤ n)
    (hlen : n ≤ 32 * stream.length) :
    cable_common_write_stream P C d stream (n : Int) set_last_bit s =
      some (feed_out d (stream_packets P C stream n set_last_bit) (APP_ERR_NONE, s)) := by
  have hk : ((n : Int) - 1).toNat = n - 1 := by omega
  have hi : (n - 1) / 32 < stream.length := by omega
  unfold cable_common_write_stream
  rw [hk, write_stream_loop_eq P d stream s (n - 1) (by omega)]
  simp only [getElem?_eq_getD hi]
  simp only [stream_packets, feed_out, List.foldl_append, List.foldl_cons, List.foldl_nil,
    last_packet]

/-! ## The read loop: fold over the packets and content of `instream` -/

theorem read_stream_loop_succ {σ : Type} (P : ShiftModel) (d : jtag_cable_t σ)
    (outstream : List Nat) (k : Nat) (st : RState σ) :
    read_stream_loop P d outstream (k + 1) st =
      (read_stream_loop P d outstream k st).bind (read_stream_body P d outstream) := by
  induction k generalizing st with
  | zero =>
    show read_stream_loop P d outstream 1 st = read_stream_body P d outstream st
    simp only [read_stream_loop]
    cases read_stream_body P d outstream st <;> rfl
  | succ k ih =>
    rw [read_stream_loop]
    cases h : read_stream_body P d outstream st with
    | none => simp [read_stream_loop, h]
    | some st1 =>
      simp only []
      rw [ih st1]
      conv_rhs => rw [read_stream_loop, h]

theorem testBit_le_one (s t : Nat) (hs : s ≤ 1) : s.testBit t = decide (s = 1 ∧ t = 0) := by
  interval_cases s
  · simp
  · by_cases ht : t = 0
    · simp [ht]
    · have h := @Nat.testBit_one_eq_true_iff_self_eq_zero t
      cases hb : Nat.testBit 1 t
      · simp [ht]
      · exact absurd (h.mp hb) ht

theorem testBit_deposit (w s c b : Nat) (hs : s ≤ 1) (hc : c < 32) :
    (w ||| (s <<< c) % 2 ^ 32).testBit b = (w.testBit b || decide (s = 1 ∧ b = c)) := by
  rw [Nat.testBit_or, Nat.testBit_mod_two_pow, Nat.testBit_shiftLeft, testBit_le_one s _ hs]
  by_cases h1 : b < 32 <;> by_cases h2 : b = c <;> by_cases h3 : s = 1 <;>
    by_cases h4 : b ≥ c <;> simp [h1, h2, h3, h4] <;> omega

theorem gathered_deposit (k s w : Nat) (samples ins : List Nat)
    (hG : Gathered (k / 32) k samples ins) (hs : s ≤ 1) (hlen : samples.length = k)
    (hw : ins[k / 32]? = some w) :
    Gathered (k / 32) (k + 1) (samples ++ [s])
      (ins.set (k / 32) (w ||| (s <<< (k % 32)) % 2 ^ 32)) := by
  intro j hj
  have hi : k / 32 < ins.length := by
    by_contra hc
    rw [List.getElem?_eq_none (by omega)] at hw
    cases hw
  obtain ⟨wj, hwj, hbits⟩ := hG j hj
  by_cases hjk : j = k / 32
  · subst hjk
    refine ⟨w ||| (s <<< (k % 32)) % 2 ^ 32, by simp [List.getElem?_set, hi], ?_⟩
    intro b
    have hww : wj = w := by rw [hw] at hwj; exact (Option.some.inj hwj).symm
    subst hww
    rw [testBit_deposit _ _ _ _ hs (by omega), hbits b]
    by_cases hb : 32 * (k / 32) + b < k
    · have : (samples ++ [s])[32 * (k / 32) + b]? = samples[32 * (k / 32) + b]? :=
        List.getElem?_append_left (by omega)
      rw [this]
      have h1 : b ≠ k % 32 := by omega
      have h2 : 32 * (k / 32) + b < k + 1 := by omega
      simp [hb, h1, h2]
    · by_cases hb2 : b = k % 32
      · have h3 : 32 * (k / 32) + b = k := by omega
        have : (samples ++ [s])[32 * (k / 32) + b]? = some s := by
          rw [h3, List.getElem?_append_right (by omega)]
          simp [hlen]
        rw [this]
        have h4 : b < 32 := by omega
        simp [hb, ← hb2, h3, h4]
      · have h2 : ¬ 32 * (k / 32) + b < k + 1 := by omega
        simp [hb, hb2, h2]
  · refine ⟨wj, ?_, ?_⟩
    · rw [List.getElem?_set]
      simp [Ne.symm hjk, hwj]
    · intro b
      rw [hbits b]
      by_cases hb : b < 32
      · have h1 : 32 * j + b < k := by omega
        have : (samples ++ [s])[32 * j + b]? = samples[32 * j + b]? :=
          List.getElem?_append_left (by omega)
        rw [this]
        have h2 : 32 * j + b < k + 1 := by omega
        simp [hb, h1, h2]
      · simp [hb]

theorem gathered_zero (K m : Nat) (samples ins : List Nat) (hG : Gathered K m samples ins)
    (hm : m = 32 * (K + 1)) (hlen : K + 1 < ins.length) :
    Gathered (K + 1) m samples (ins.set (K + 1) 0) := by
  intro j hj
  by_cases hjk : j = K + 1
  · subst hjk
    refine ⟨0, by simp [List.getElem?_set, hlen], ?_⟩
    intro b
    have : ¬ 32 * (K + 1) + b < m := by omega
    simp [this]
  · obtain ⟨wj, hwj, hbits⟩ := hG j (by omega)
    refine ⟨wj, ?_, hbits⟩
    rw [List.getElem?_set]
    simp [Ne.symm hjk, hwj]

theorem read_stream_body_at {σ : Type} (P : ShiftModel) (d : jtag_cable_t σ)
    (outstream : List Nat) (k : Nat) (hk : k < 32 * outstream.length) (b : Nat) (e : Int)
    (ins : List Nat) (s : σ) (w : Nat) (hw : ins[k / 32]? = some w)
    (hnext : (k + 1) % 32 = 0 → (k + 1) / 32 < ins.length) :
    read_stream_body P d outstream
        { index := k / 32, bits_this_index := k % 32, inval := b, err := e, instream := ins,
          drv := s } =
      some { index := (k + 1) / 32, bits_this_index := (k + 1) % 32,
             inval := (cable_read_write_bit d (stream_bit outstream k) b s).1.2,
             err := Int.lor e (cable_read_write_bit d (stream_bit outstream k) b s).1.1,
             instream :=
               if (k + 1) % 32 = 0 then
                 (ins.set (k / 32) (w ||| ((cable_read_write_bit d (stream_bit outstream k) b
                    s).1.2 <<< (k % 32)) % 2 ^ 32)).set ((k + 1) / 32) 0
               else
                 ins.set (k / 32) (w ||| ((cable_read_write_bit d (stream_bit outstream k) b
                    s).1.2 <<< (k % 32)) % 2 ^ 32),
             drv := (cable_read_write_bit d (stream_bit outstream k) b s).2 } := by
  have hi : k / 32 < outstream.length := by omega
  have hi2 : k / 32 < ins.length := by
    by_contra hc
    rw [List.getElem?_eq_none (by omega)] at hw
    cases hw
  have hs : P.shr (outstream.getD (k / 32) 0) ((k % 32 : Nat) : Int) =
      outstream.getD (k / 32) 0 >>> (k % 32) := by
    rw [P.shr_def _ _ (by omega) (by omega), Int.toNat_ofNat]
  unfold read_stream_body
  simp only [getElem?_eq_getD hi, hs, or_into, hw, store, hi2, if_true]
  by_cases hb : k % 32 + 1 ≥ 32
  · have h1 : (k + 1) / 32 = k / 32 + 1 := by omega
    have h2 : (k + 1) % 32 = 0 := by omega
    have h3 : k / 32 + 1 < ins.length := by have := hnext h2; omega
    simp [hb, h1, h2, h3, stream_bit]
  · have h1 : (k + 1) / 32 = k / 32 := by omega
    have h2 : (k + 1) % 32 = k % 32 + 1 := by omega
    simp [hb, h1, h2, stream_bit]

theorem feed_inout_snoc {σ : Type} (d : jtag_cable_t σ) (ps : List Nat) (p : Nat)
    (acc : Fed σ) :
    feed_inout d (ps ++ [p]) acc =
      { err := Int.lor (feed_inout d ps acc).err
          (cable_read_write_bit d p (feed_inout d ps acc).inval (feed_inout d ps acc).drv).1.1,
        inval :=
          (cable_read_write_bit d p (feed_inout d ps acc).inval (feed_inout d ps acc).drv).1.2,
        samples := (feed_inout d ps acc).samples ++
          [(cable_read_write_bit d p (feed_inout d ps acc).inval (feed_inout d ps acc).drv).1.2],
        drv :=
          (cable_read_write_bit d p (feed_inout d ps acc).inval (feed_inout d ps acc).drv).2 } := by
  simp [feed_inout, List.foldl_append]

theorem read_stream_loop_inv {σ : Type} (P : ShiftModel) (d : jtag_cable_t σ)
    (outstream ins0 : List Nat) (inval0 : Nat) (s : σ) (k : Nat)
    (hk1 : k < 32 * outstream.length) (hk2 : k < 32 * ins0.length) :
    ∃ ins, read_stream_loop P d outstream k
        { index := 0, bits_this_index := 0, inval := inval0, err := APP_ERR_NONE,
          instream := ins0.set 0 0, drv := s } =
      some { index := k / 32, bits_this_index := k % 32,
             inval := (feed_inout d ((List.range k).map (stream_bit outstream))
               ⟨APP_ERR_NONE, inval0, [], s⟩).inval,
             err := (feed_inout d ((List.range k).map (stream_bit outstream))
               ⟨APP_ERR_NONE, inval0, [], s⟩).err,
             instream := ins,
             drv := (feed_inout d ((List.range k).map (stream_bit outstream))
               ⟨APP_ERR_NONE, inval0, [], s⟩).drv } ∧
      ins.length = ins0.length ∧ (∀ j, k / 32 < j → ins[j]? = ins0[j]?) ∧
      (feed_inout d ((List.range k).map (stream_bit outstream))
               ⟨APP_ERR_NONE, inval0, [], s⟩).samples.length = k ∧
      ((∀ b ∈ (feed_inout d ((List.range k).map (stream_bit outstream))
               ⟨APP_ERR_NONE, inval0, [], s⟩).samples, b ≤ 1) →
        Gathered (k / 32) k (feed_inout d ((List.range k).map (stream_bit outstream))
               ⟨APP_ERR_NONE, inval0, [], s⟩).samples ins) := by
  induction k with
  | zero =>
    refine ⟨ins0.set 0 0, ?_, by simp, ?_, by simp [feed_inout], ?_⟩
    · simp [read_stream_loop, feed_inout]
    · intro j hj
      rw [List.getElem?_set]
      have : ¬ (0 = j) := by omega
      simp [this]
    · intro _ j hj
      have hj0 : j = 0 := by omega
      subst hj0
      refine ⟨0, ?_, ?_⟩
      · rw [List.getElem?_set]
        have : 0 < ins0.length := by omega
        simp [this]
      · intro b
        simp
  | succ k ih =>
    obtain ⟨ins, hloop, hlen, hframe, hslen, hG⟩ := ih (by omega) (by omega)
    have hi : k / 32 < ins.length := by omega
    have hw : ins[k / 32]? = some (ins.getD (k / 32) 0) := getElem?_eq_getD hi
    have hnext : (k + 1) % 32 = 0 → (k + 1) / 32 < ins.length := by
      intro _; omega
    rw [read_stream_loop_succ, hloop]
    simp only [Option.bind]
    rw [read_stream_body_at P d outstream k (by omega) _ _ ins _ _ hw hnext]
    simp only [List.range_succ, List.map_append, List.map_cons, List.map_nil, feed_inout_snoc]
    generalize hF : feed_inout d ((List.range k).map (stream_bit outstream))
      ⟨APP_ERR_NONE, inval0, [], s⟩ = F at hslen hG ⊢
    generalize hr : cable_read_write_bit d (stream_bit outstream k) F.inval F.drv = r
    refine ⟨_, rfl, ?_, ?_, by simp [hslen], ?_⟩
    · split <;> simp [hlen]
    · intro j hj
      have hj1 : k / 32 < j := by omega
      have hj2 : ¬ (k / 32 = j) := by omega
      split
      · have hj3 : ¬ ((k + 1) / 32 = j) := by omega
        rw [List.getElem?_set, List.getElem?_set]
        simp [hj2, hj3, hframe j hj1]
      · rw [List.getElem?_set]
        simp [hj2, hframe j hj1]
    · intro hall
      have hall1 : ∀ b ∈ F.samples, b ≤ 1 := fun b hb => hall b (by simp [hb])
      have hr1 : r.1.2 ≤ 1 := hall _ (by simp)
      have hG1 := gathered_deposit k r.1.2 _ F.samples ins (hG hall1) hr1 hslen hw
      split
      · rename_i h0
        have e1 : (k + 1) / 32 = k / 32 + 1 := by omega
        rw [e1]
        apply gathered_zero _ _ _ _ hG1 (by omega)
        simp; omega
      · rename_i h0
        have e1 : (k + 1) / 32 = k / 32 := by omega
        rw [e1]
        exact hG1

theorem read_stream_eq_feed {σ : Type} (P : ShiftModel) (C : Consts) (d : jtag_cable_t σ)
    (outstream ins0 : List Nat) (n : Nat) (set_last_bit : Int) (inval0 : Nat) (s : σ)
    (hn : 1 ≤ n) (hlen1 : n ≤ 32 * outstream.length) (hlen2 : n ≤ 32 * ins0.length) :
    ∃ ins, cable_common_read_stream P C d outstream ins0 (n : Int) set_last_bit inval0 s =
        some (((feed_inout d (stream_packets P C outstream n set_last_bit)
                ⟨APP_ERR_NONE, inval0, [], s⟩).err, ins),
              (feed_inout d (stream_packets P C outstream n set_last_bit)
                ⟨APP_ERR_NONE, inval0, [], s⟩).drv) ∧
      ins.length = ins0.length ∧ (∀ j, (n - 1) / 32 < j → ins[j]? = ins0[j]?) ∧
      (feed_inout d (stream_packets P C outstream n set_last_bit)
                ⟨APP_ERR_NONE, inval0, [], s⟩).samples.length = n ∧
      ((∀ b ∈ (feed_inout d (stream_packets P C outstream n set_last_bit)
                ⟨APP_ERR_NONE, inval0, [], s⟩).samples, b ≤ 1) →
        Gathered ((n - 1) / 32) n (feed_inout d (stream_packets P C outstream n set_last_bit)
                ⟨APP_ERR_NONE, inval0, [], s⟩).samples ins) := by
  obtain ⟨ins, hloop, hlen, hframe, hslen, hG⟩ :=
    read_stream_loop_inv P d outstream ins0 inval0 s (n - 1) (by omega) (by omega)
  have hk : ((n : Int) - 1).toNat = n - 1 := by omega
  have h0 : 0 < ins0.length := by omega
  have hi1 : (n - 1) / 32 < outstream.length := by omega
  have hi2 : (n - 1) / 32 < ins.length := by omega
  have hw : ins[(n - 1) / 32]? = some (ins.getD ((n - 1) / 32) 0) := getElem?_eq_getD hi2
  have hn1 : n - 1 + 1 = n := by omega
  unfold cable_common_read_stream
  simp only [store, h0, if_true, hk, hloop, getElem?_eq_getD hi1, or_into, hw, hi2]
  simp only [stream_packets, feed_inout_snoc]
  generalize hF : feed_inout d ((List.range (n - 1)).map (stream_bit outstream))
      ⟨APP_ERR_NONE, inval0, [], s⟩ = F at hslen hG ⊢
  have hp : (if set_last_bit ≠ 0 then
        ((P.shr (outstream.getD ((n - 1) / 32) 0) ((n : Int) - 1) &&& 1) ||| C.TMS) % 256
      else P.shr (outstream.getD ((n - 1) / 32) 0) ((n : Int) - 1) &&& 1) =
      last_packet P C outstream n set_last_bit := rfl
  rw [hp]
  generalize hr : cable_read_write_bit d (last_packet P C outstream n set_last_bit)
    F.inval F.drv = r
  refine ⟨_, rfl, by simp [hlen], ?_, by simp [hslen]; omega, ?_⟩
  · intro j hj
    have hj2 : ¬ ((n - 1) / 32 = j) := by omega
    rw [List.getElem?_set]
    simp [hj2, hframe j hj]
  · intro hall
    have hall1 : ∀ b ∈ F.samples, b ≤ 1 := fun b hb => hall b (by simp [hb])
    have hr1 : r.1.2 ≤ 1 := hall _ (by simp)
    have hG1 := gathered_deposit (n - 1) r.1.2 _ F.samples ins (hG hall1) hr1 hslen hw
    rw [hn1] at hG1
    exact hG1

theorem ret_codes_cons (R : Responses) (h : List Call) (c : Call) (cs : List Call) :
    ret_codes R h (c :: cs) = R.ret (h ++ [c]) :: ret_codes R (h ++ [c]) cs := by
  simp [ret_codes, List.range_succ_eq_map, List.map_map, Function.comp_def]

theorem sampled_cons (R : Responses) (h : List Call) (c : Call) (cs : List Call) :
    sampled R h (c :: cs) = R.bit (h ++ [c]) :: sampled R (h ++ [c]) cs := by
  simp [sampled, List.range_succ_eq_map, List.map_map, Function.comp_def]

theorem cable_write_bit_recorder (R : Responses) (p : Nat) (h : List Call) :
    cable_write_bit (recorder R) p h = (R.ret (h ++ [Call.bit_out p]), h ++ [Call.bit_out p]) :=
  rfl

theorem cable_read_write_bit_recorder (R : Responses) (p b : Nat) (h : List Call) :
    cable_read_write_bit (recorder R) p b h =
      ((R.ret (h ++ [Call.bit_inout p]), R.bit (h ++ [Call.bit_inout p])),
        h ++ [Call.bit_inout p]) :=
  rfl

theorem feed_out_cons {σ : Type} (d : jtag_cable_t σ) (p : Nat) (ps : List Nat)
    (acc : Int × σ) :
    feed_out d (p :: ps) acc =
      feed_out d ps (Int.lor acc.1 (cable_write_bit d p acc.2).1,
        (cable_write_bit d p acc.2).2) := rfl

theorem feed_inout_cons {σ : Type} (d : jtag_cable_t σ) (p : Nat) (ps : List Nat)
    (acc : Fed σ) :
    feed_inout d (p :: ps) acc =
      feed_inout d ps
        { err := Int.lor acc.err (cable_read_write_bit d p acc.inval acc.drv).1.1,
          inval := (cable_read_write_bit d p acc.inval acc.drv).1.2,
          samples := acc.samples ++ [(cable_read_write_bit d p acc.inval acc.drv).1.2],
          drv := (cable_read_write_bit d p acc.inval acc.drv).2 } := rfl

theorem feed_out_recorder (R : Responses) (ps : List Nat) (e : Int) (h : List Call) :
    feed_out (recorder R) ps (e, h) =
      ((ret_codes R h (ps.map Call.bit_out)).foldl Int.lor e, h ++ ps.map Call.bit_out) := by
  induction ps generalizing e h with
  | nil => simp [feed_out, ret_codes]
  | cons p ps ih =>
    rw [feed_out_cons, cable_write_bit_recorder, ih]
    simp [ret_codes_cons]

theorem feed_inout_recorder (R : Responses) (ps : List Nat) (e : Int) (b : Nat)
    (sm : List Nat) (h : List Call) :
    (feed_inout (recorder R) ps ⟨e, b, sm, h⟩).err =
        (ret_codes R h (ps.map Call.bit_inout)).foldl Int.lor e ∧
      (feed_inout (recorder R) ps ⟨e, b, sm, h⟩).samples =
        sm ++ sampled R h (ps.map Call.bit_inout) ∧
      (feed_inout (recorder R) ps ⟨e, b, sm, h⟩).drv = h ++ ps.map Call.bit_inout := by
  induction ps generalizing e b sm h with
  | nil => simp [feed_inout, ret_codes, sampled]
  | cons p ps ih =>
    rw [feed_inout_cons, cable_read_write_bit_recorder]
    obtain ⟨h1, h2, h3⟩ := ih (Int.lor e (R.ret (h ++ [Call.bit_inout p])))
      (R.bit (h ++ [Call.bit_inout p])) (sm ++ [R.bit (h ++ [Call.bit_inout p])])
      (h ++ [Call.bit_inout p])
    simp only [] at h1 h2 h3 ⊢
    rw [h1, h2, h3]
    simp [ret_codes_cons, sampled_cons]

/-! ## Claims on the bit-level functions -/

/-- C1: `cable_common_write_bit` makes exactly two driver calls, both to
`out_func`: the first with a word `w` whose clock bit is clear, the second with
`w ||| TCLK_BIT`; the two words differ in exactly the clock bit.  Holds for every
packet, every driver behaviour `R` and every call history `h`, given that
`TCLK_BIT` is a single bit of the byte, distinct from the single bits `TDI_BIT`,
`TMS_BIT` and `TRST_BIT`. -/
theorem write_bit_two_words (C : Consts) (hc : IsByteBit C.TCLK_BIT)
    (hd : IsByteBit C.TDI_BIT) (hm : IsByteBit C.TMS_BIT) (hr : IsByteBit C.TRST_BIT)
    (hcd : C.TCLK_BIT ≠ C.TDI_BIT) (hcm : C.TCLK_BIT ≠ C.TMS_BIT)
    (hcr : C.TCLK_BIT ≠ C.TRST_BIT) (R : Responses) (packet : Nat) (h : List Call) :
    ∃ w, (cable_common_write_bit C (recorder R) packet h).2
          = h ++ [Call.out w, Call.out (w ||| C.TCLK_BIT)] ∧
      w &&& C.TCLK_BIT = 0 ∧ (w ||| C.TCLK_BIT) ^^^ w = C.TCLK_BIT := by
  obtain ⟨h1, h2, h3⟩ := flag_data_clock C hc hd hm hr hcd hcm hcr packet
  refine ⟨flag_data C packet, ?_, h1, h3⟩
  rw [write_bit_unfold, h2]
  simp [recorder]

/-- Witness of C1 at `stdConsts`, packet `TDO | TMS`. -/
theorem write_bit_two_words_witness :
    ∃ w, (cable_common_write_bit stdConsts (recorder quiet) 3 []).2
          = [] ++ [Call.out w, Call.out (w ||| stdConsts.TCLK_BIT)] ∧
      w &&& stdConsts.TCLK_BIT = 0 ∧ (w ||| stdConsts.TCLK_BIT) ^^^ w = stdConsts.TCLK_BIT :=
  write_bit_two_words stdConsts (by decide) (by decide) (by decide) (by decide) (by decide)
    (by decide) (by decide) quiet 3 []

/-- C2: the word emitted in the clock-low phase by `cable_common_write_bit` and
by `cable_common_read_write_bit` (the call logged right after the history `h`) is
the same word `w`, sent through `out_func`, and `w` has `TDI_BIT` iff the packet
has `TDO`, `TMS_BIT` iff the packet has `TMS`, `TRST_BIT` iff the packet lacks
`TRST`, no other bit, and in particular not `TCLK_BIT`.  Assumes the four
Signal-Word bits are distinct single bits of the byte. -/
theorem clock_low_word_exact (C : Consts) (hC : SignalBits C) (R : Responses)
    (packet bit_in : Nat) (h : List Call) :
    ∃ w, (cable_common_write_bit C (recorder R) packet h).2[h.length]? = some (Call.out w) ∧
      (cable_common_read_write_bit C (recorder R) packet bit_in h).2[h.length]?
        = some (Call.out w) ∧
      (w &&& C.TDI_BIT ≠ 0 ↔ packet &&& C.TDO ≠ 0) ∧
      (w &&& C.TMS_BIT ≠ 0 ↔ packet &&& C.TMS ≠ 0) ∧
      (w &&& C.TRST_BIT ≠ 0 ↔ packet &&& C.TRST = 0) ∧
      (∀ i, w.testBit i = true →
        2 ^ i = C.TDI_BIT ∨ 2 ^ i = C.TMS_BIT ∨ 2 ^ i = C.TRST_BIT) ∧
      w &&& C.TCLK_BIT = 0 := by
  have hC0 := hC
  obtain ⟨hc, hd, hm, hr, hcd, hcm, hcr, _, hdr, hmr⟩ := hC
  have e := flag_data_eq_signal_word C hd hm hr hdr hmr packet
  obtain ⟨b1, b2, b3, b4⟩ := signal_word_bits C hC0 packet
  obtain ⟨k1, _, _⟩ := flag_data_clock C hc hd hm hr hcd hcm hcr packet
  refine ⟨signal_word C packet, ?_, ?_, b1, b2, b3, b4, e ▸ k1⟩
  · rw [write_bit_unfold, e]
    simp only [recorder, List.append_assoc, List.singleton_append]
    rw [List.getElem?_append_right (le_refl _)]
    simp
  · rw [read_write_bit_unfold, e]
    simp only [recorder, List.append_assoc, List.singleton_append]
    rw [List.getElem?_append_right (le_refl _)]
    simp

/-- Witness of C2 at `stdConsts`, packet `TDO | TRST`. -/
theorem clock_low_word_exact_witness :
    ∃ w, (cable_common_write_bit stdConsts (recorder quiet) 5 []).2[([] : List Call).length]?
        = some (Call.out w) ∧
      (cable_common_read_write_bit stdConsts (recorder quiet) 5 0 []).2[([] : List Call).length]?
        = some (Call.out w) ∧
      (w &&& stdConsts.TDI_BIT ≠ 0 ↔ 5 &&& stdConsts.TDO ≠ 0) ∧
      (w &&& stdConsts.TMS_BIT ≠ 0 ↔ 5 &&& stdConsts.TMS ≠ 0) ∧
      (w &&& stdConsts.TRST_BIT ≠ 0 ↔ 5 &&& stdConsts.TRST = 0) ∧
      (∀ i, w.testBit i = true →
        2 ^ i = stdConsts.TDI_BIT ∨ 2 ^ i = stdConsts.TMS_BIT ∨ 2 ^ i = stdConsts.TRST_BIT) ∧
      w &&& stdConsts.TCLK_BIT = 0 :=
  clock_low_word_exact stdConsts (by decide) quiet 5 0 []

/-! ## The stream functions on the recording driver, and the claims on them -/

theorem int_zero_lor (a : Int) : Int.lor 0 a = a := by
  cases a with
  | ofNat n => simp [Int.lor]
  | negSucc n =>
    have h : Nat.ldiff n 0 = n := by
      apply Nat.eq_of_testBit_eq
      intro i
      simp [Nat.testBit_ldiff]
    show Int.negSucc (Nat.ldiff n 0) = Int.negSucc n
    rw [h]

theorem write_stream_recorder (P : ShiftModel) (C : Consts) (R : Responses)
    (stream : List Nat) (n : Nat) (set_last_bit : Int) (h : List Call) (hn : 1 ≤ n)
    (hlen : n ≤ 32 * stream.length) :
    cable_common_write_stream P C (recorder R) stream (n : Int) set_last_bit h =
      some ((ret_codes R h ((stream_packets P C stream n set_last_bit).map Call.bit_out)).foldl
          Int.lor 0,
        h ++ (stream_packets P C stream n set_last_bit).map Call.bit_out) := by
  rw [write_stream_eq_feed P C _ stream n set_last_bit h hn hlen, feed_out_recorder]
  rfl

theorem read_stream_recorder (P : ShiftModel) (C : Consts) (R : Responses)
    (outstream ins0 : List Nat) (n : Nat) (set_last_bit : Int) (inval0 : Nat) (h : List Call)
    (hn : 1 ≤ n) (hlen1 : n ≤ 32 * outstream.length) (hlen2 : n ≤ 32 * ins0.length) :
    ∃ ins, cable_common_read_stream P C (recorder R) outstream ins0 (n : Int) set_last_bit
          inval0 h =
        some (((ret_codes R h
            ((stream_packets P C outstream n set_last_bit).map Call.bit_inout)).foldl Int.lor 0,
          ins), h ++ (stream_packets P C outstream n set_last_bit).map Call.bit_inout) ∧
      ins.length = ins0.length ∧ (∀ j, (n - 1) / 32 < j → ins[j]? = ins0[j]?) ∧
      ((∀ b ∈ sampled R h ((stream_packets P C outstream n set_last_bit).map Call.bit_inout),
          b ≤ 1) →
        Gathered ((n - 1) / 32) n
          (sampled R h ((stream_packets P C outstream n set_last_bit).map Call.bit_inout))
          ins) := by
  obtain ⟨ins, hrun, hl, hf, _, hG⟩ :=
    read_stream_eq_feed P C (recorder R) outstream ins0 n set_last_bit inval0 h hn hlen1 hlen2
  obtain ⟨h1, h2, h3⟩ := feed_inout_recorder R (stream_packets P C outstream n set_last_bit)
    APP_ERR_NONE inval0 [] h
  rw [h1, h3] at hrun
  rw [h2] at hG
  exact ⟨ins, hrun, hl, hf, by simpa using hG⟩

theorem stream_packets_length (P : ShiftModel) (C : Consts) (stream : List Nat) (n : Nat)
    (set_last_bit : Int) (hn : 1 ≤ n) :
    (stream_packets P C stream n set_last_bit).length = n := by
  simp [stream_packets]; omega

theorem stream_packets_getElem (P : ShiftModel) (C : Consts) (stream : List Nat) (n : Nat)
    (set_last_bit : Int) (i : Nat) (p : Nat)
    (hp : (stream_packets P C stream n set_last_bit)[i]? = some p) :
    (i < n - 1 ∧ p = stream_bit stream i) ∨
      (i = n - 1 ∧ p = last_packet P C stream n set_last_bit) := by
  unfold stream_packets at hp
  by_cases hi : i < n - 1
  · left
    rw [List.getElem?_append_left (by simpa using hi)] at hp
    simp [List.getElem?_map, List.getElem?_range hi] at hp
    exact ⟨hi, hp.symm⟩
  · right
    rw [List.getElem?_append_right (by simpa using hi)] at hp
    simp only [List.length_map, List.length_range] at hp
    by_cases h0 : i - (n - 1) = 0
    · rw [h0] at hp
      simp at hp
      exact ⟨by omega, hp.symm⟩
    · obtain ⟨m, hm⟩ := Nat.exists_eq_succ_of_ne_zero h0
      rw [hm] at hp
      simp at hp

theorem data_bit_no_flag (x t : Nat) (ht : t ≠ 0) : (x &&& 1) &&& 2 ^ t = 0 := by
  apply Nat.eq_of_testBit_eq
  intro i
  rw [Nat.testBit_and, Nat.testBit_and, Nat.zero_testBit, Nat.testBit_two_pow]
  by_cases h : t = i
  · subst h
    have h1 : Nat.testBit 1 t = false := by
      cases hb : Nat.testBit 1 t
      · rfl
      · exact absurd (Nat.testBit_one_eq_true_iff_self_eq_zero.mp hb) ht
    rw [h1]
    simp
  · simp [h]

theorem flag_merged (x t : Nat) (ht : t < 8) : ((x ||| 2 ^ t) % 256) &&& 2 ^ t ≠ 0 := by
  rw [and_two_pow_ne_zero, testBit_mod_256]
  simp [Nat.testBit_two_pow, ht]

theorem stream_packets_tms (P : ShiftModel) (C : Consts) (stream : List Nat) (n : Nat)
    (set_last_bit : Int) (hT : IsByteBit C.TMS) (hT1 : C.TMS ≠ 1) (i p : Nat)
    (hp : (stream_packets P C stream n set_last_bit)[i]? = some p) :
    p &&& C.TMS ≠ 0 ↔ (i = n - 1 ∧ set_last_bit ≠ 0) := by
  obtain ⟨t, ht, et⟩ := hT.exists_pow
  have ht0 : t ≠ 0 := by
    rintro rfl
    exact hT1 (by simpa using et)
  rcases stream_packets_getElem P C stream n set_last_bit i p hp with ⟨hi, rfl⟩ | ⟨hi, rfl⟩
  · rw [et, stream_bit, data_bit_no_flag _ _ ht0]
    constructor
    · intro hc; exact absurd rfl hc
    · rintro ⟨h1, _⟩; omega
  · unfold last_packet
    by_cases hs : set_last_bit ≠ 0
    · rw [if_pos hs, et]
      exact ⟨fun _ => ⟨hi, hs⟩, fun _ => flag_merged _ _ ht⟩
    · rw [if_neg hs, et, data_bit_no_flag _ _ ht0]
      constructor
      · intro hc; exact absurd rfl hc
      · rintro ⟨_, h2⟩; exact absurd h2 hs

/-- C4: in both generic stream operations, run for `n ≥ 1` bits on buffers that hold
them, the packets of the `n` bit transfers are the same list `ps`, and packet `i`
carries `TMS` iff `i = n - 1` and `set_last_bit ≠ 0`; so transfers `0 .. n - 2` never
carry it.  `TMS` is assumed to be a single flag bit other than the data bit `0x01`. -/
theorem tms_only_on_last_bit (P : ShiftModel) (C : Consts) (R : Responses)
    (stream ins0 : List Nat) (n : Nat) (set_last_bit : Int) (inval0 : Nat) (h : List Call)
    (hn : 1 ≤ n) (hlen1 : n ≤ 32 * stream.length) (hlen2 : n ≤ 32 * ins0.length)
    (hT : IsByteBit C.TMS) (hT1 : C.TMS ≠ 1) :
    ∃ (ps : List Nat) (e1 e2 : Int) (ins : List Nat), ps.length = n ∧
      cable_common_write_stream P C (recorder R) stream (n : Int) set_last_bit h =
        some (e1, h ++ ps.map Call.bit_out) ∧
      cable_common_read_stream P C (recorder R) stream ins0 (n : Int) set_last_bit inval0 h =
        some ((e2, ins), h ++ ps.map Call.bit_inout) ∧
      ∀ i p, ps[i]? = some p → (p &&& C.TMS ≠ 0 ↔ (i = n - 1 ∧ set_last_bit ≠ 0)) := by
  obtain ⟨ins, hr, _, _, _⟩ :=
    read_stream_recorder P C R stream ins0 n set_last_bit inval0 h hn hlen1 hlen2
  exact ⟨stream_packets P C stream n set_last_bit, _, _, ins,
    stream_packets_length P C stream n set_last_bit hn,
    write_stream_recorder P C R stream n set_last_bit h hn hlen1, hr,
    fun i p hp => stream_packets_tms P C stream n set_last_bit hT hT1 i p hp⟩

/-- Witness of C4: 33 bits, `set_last_bit = 1`. -/
theorem tms_only_on_last_bit_witness :
    1 ≤ 33 ∧ 33 ≤ 32 * [5, 1].length ∧ 33 ≤ 32 * [7, 7].length ∧
    ∃ (ps : List Nat) (e1 e2 : Int) (ins : List Nat), ps.length = 33 ∧
      cable_common_write_stream shiftMasked stdConsts (recorder quiet) [5, 1] ((33 : Nat) : Int)
          1 [] = some (e1, [] ++ ps.map Call.bit_out) ∧
      cable_common_read_stream shiftMasked stdConsts (recorder quiet) [5, 1] [7, 7]
          ((33 : Nat) : Int) 1 0 [] = some ((e2, ins), [] ++ ps.map Call.bit_inout) ∧
      ∀ i p, ps[i]? = some p → (p &&& stdConsts.TMS ≠ 0 ↔ (i = 33 - 1 ∧ (1 : Int) ≠ 0)) :=
  ⟨by decide, by decide, by decide,
    tms_only_on_last_bit shiftMasked stdConsts quiet [5, 1] [7, 7] 33 1 0 [] (by decide)
      (by decide) (by decide) (by decide) (by decide)⟩

/-- Remark on portability.  Once `len_bits > 32` the shift amount `len_bits - 1` of the
final bit is outside the range for which C defines `>>`.  At `stream = [0, 1]`,
`len_bits = 33` the last packet is `1` where the count is reduced modulo 32, and
would be `0` where the shift yields its arithmetic value. -/
theorem final_shift_out_of_range :
    cable_common_write_stream shiftMasked stdConsts (recorder quiet) [0, 1] 33 0 [] =
      some (0, List.replicate 32 (Call.bit_out 0) ++ [Call.bit_out 1]) ∧
    cable_common_write_stream shiftArith stdConsts (recorder quiet) [0, 1] 33 0 [] =
      some (0, List.replicate 33 (Call.bit_out 0)) := by
  decide

theorem sampled_getElem (R : Responses) (h calls : List Call) (i : Nat) (hi : i < calls.length) :
    (sampled R h calls)[i]? = some (R.bit ((h ++ calls).take (h.length + i + 1))) := by
  have e : (h ++ calls).take (h.length + i + 1) = h ++ calls.take (i + 1) := by
    rw [Nat.add_assoc, List.take_append]
  rw [e]
  simp [sampled, List.getElem?_map, List.getElem?_range hi]

theorem stream_bit_and_one (stream : List Nat) (i : Nat) :
    stream_bit stream i &&& 1 = stream_bit stream i := by
  unfold stream_bit
  rw [Nat.and_assoc]
  rfl

theorem masked_last_packet_data (C : Consts) (stream : List Nat) (n : Nat)
    (set_last_bit : Int) (hn : 1 ≤ n) (hT : set_last_bit = 0 ∨ C.TMS % 2 = 0) :
    last_packet shiftMasked C stream n set_last_bit &&& 1 = stream_bit stream (n - 1) := by
  have hs : shiftMasked.shr (stream.getD ((n - 1) / 32) 0) ((n : Int) - 1) =
      stream.getD ((n - 1) / 32) 0 >>> ((n - 1) % 32) := by
    show stream.getD ((n - 1) / 32) 0 >>> (((n : Int) - 1) % 32).toNat = _
    congr 1
    omega
  have hb : last_packet shiftMasked C stream n 0 = stream_bit stream (n - 1) := by
    unfold last_packet stream_bit
    rw [hs]
    simp
  by_cases h : set_last_bit ≠ 0
  · have hT' : C.TMS % 2 = 0 := hT.resolve_left h
    have e : last_packet shiftMasked C stream n set_last_bit =
        (stream_bit stream (n - 1) ||| C.TMS) % 256 := by
      unfold last_packet stream_bit
      rw [hs, if_pos h]
    rw [e]
    apply Nat.eq_of_testBit_eq
    intro i
    rw [Nat.testBit_and, testBit_mod_256, Nat.testBit_or, ← stream_bit_and_one,
      Nat.testBit_and]
    by_cases hi : i = 0
    · subst hi
      have : C.TMS.testBit 0 = false := by
        rw [Nat.testBit_zero]; simp [hT']
      simp [this]
    · have h1 : Nat.testBit 1 i = false := by
        cases hb : Nat.testBit 1 i
        · rfl
        · exact absurd (Nat.testBit_one_eq_true_iff_self_eq_zero.mp hb) hi
      simp [h1]
  · have h0 : set_last_bit = 0 := not_not.mp h
    rw [h0, hb, stream_bit_and_one]

theorem masked_packets_data (C : Consts) (stream : List Nat) (n : Nat)
    (set_last_bit : Int) (hn : 1 ≤ n) (hT : set_last_bit = 0 ∨ C.TMS % 2 = 0) (i p : Nat)
    (hp : (stream_packets shiftMasked C stream n set_last_bit)[i]? = some p) :
    p &&& 1 = stream_bit stream i := by
  rcases stream_packets_getElem shiftMasked C stream n set_last_bit i p hp with
    ⟨_, rfl⟩ | ⟨hi, rfl⟩
  · exact stream_bit_and_one stream i
  · rw [hi]
    exact masked_last_packet_data C stream n set_last_bit hn hT

theorem masked_packets_plain (C : Consts) (stream : List Nat) (n : Nat) (hn : 1 ≤ n)
    (i p : Nat) (hp : (stream_packets shiftMasked C stream n 0)[i]? = some p) :
    p = stream_bit stream i := by
  have h1 := masked_packets_data C stream n 0 hn (Or.inl rfl) i p hp
  rcases stream_packets_getElem shiftMasked C stream n 0 i p hp with ⟨_, rfl⟩ | ⟨_, rfl⟩
  · rfl
  · rw [← h1]
    show _ = (shiftMasked.shr _ _ &&& 1) &&& 1
    rw [Nat.and_assoc]
    rfl

theorem stream_bit_eq (stream : List Nat) (i w : Nat) (hw : stream[i / 32]? = some w) :
    stream_bit stream i = (w.testBit (i % 32)).toNat := by
  have : stream.getD (i / 32) 0 = w := by simp [List.getD, hw]
  unfold stream_bit
  rw [this, Nat.and_one_is_mod, Nat.toNat_testBit, Nat.shiftRight_eq_div_pow]

/-- C3: for every stream and every `n ≥ 1` (also beyond 32, where the final bit lies
in a later word), `cable_common_write_stream stream n 0` makes exactly `n` bit-write
calls, and packet `i` is the value (`0` or `1`) of bit `i % 32` of word `stream[i / 32]`,
so its data flag (bit 0) is that bit.  The shift of lines 156 and 167 is taken with
its count reduced modulo 32 (`shiftMasked`); for `n ≤ 32` every count is in range. -/
theorem write_stream_data_bits (C : Consts) (R : Responses) (stream : List Nat) (n : Nat)
    (h : List Call) (hn : 1 ≤ n) (hlen : n ≤ 32 * stream.length) :
    ∃ (e : Int) (ps : List Nat), ps.length = n ∧
      cable_common_write_stream shiftMasked C (recorder R) stream (n : Int) 0 h =
        some (e, h ++ ps.map Call.bit_out) ∧
      ∀ i, i < n → ∃ p w, ps[i]? = some p ∧ stream[i / 32]? = some w ∧
        p = (w.testBit (i % 32)).toNat ∧ p.testBit 0 = w.testBit (i % 32) := by
  have hpl := stream_packets_length shiftMasked C stream n 0 hn
  refine ⟨_, stream_packets shiftMasked C stream n 0, hpl,
    write_stream_recorder shiftMasked C R stream n 0 h hn hlen, ?_⟩
  intro i hi
  have hlt : i < (stream_packets shiftMasked C stream n 0).length := by omega
  have hp := List.getElem?_eq_getElem hlt
  have hw : stream[i / 32]? = some (stream.getD (i / 32) 0) := getElem?_eq_getD (by omega)
  have e1 := masked_packets_plain C stream n hn i _ hp
  have e2 := stream_bit_eq stream i _ hw
  refine ⟨_, _, hp, hw, e1.trans e2, ?_⟩
  rw [e1, e2]
  cases (stream.getD (i / 32) 0).testBit (i % 32) <;> rfl

/-- Witness of C3: 33 bits, the final bit in the second word. -/
theorem write_stream_data_bits_witness :
    ∃ (e : Int) (ps : List Nat), ps.length = 33 ∧
      cable_common_write_stream shiftMasked stdConsts (recorder quiet) [0, 1] ((33 : Nat) : Int)
        0 [] = some (e, [] ++ ps.map Call.bit_out) ∧
      ∀ i, i < 33 → ∃ p w, ps[i]? = some p ∧ ([0, 1] : List Nat)[i / 32]? = some w ∧
        p = (w.testBit (i % 32)).toNat ∧ p.testBit 0 = w.testBit (i % 32) :=
  write_stream_data_bits stdConsts quiet [0, 1] 33 [] (by decide) (by decide)

theorem echo_bit_le (l : List Call) : echo.bit l ≤ 1 := by
  show (match l.getLast? with
    | some (Call.bit_inout p) => p &&& 1
    | _ => 0) ≤ 1
  split
  · exact Nat.and_le_right
  · exact Nat.zero_le 1

theorem echo_sample (h : List Call) (ps : List Nat) (i : Nat) (hi : i < ps.length) :
    (sampled echo h (ps.map Call.bit_inout))[i]? = some (ps[i] &&& 1) := by
  rw [sampled_getElem echo h _ i (by simpa using hi)]
  have e : (h ++ ps.map Call.bit_inout).take (h.length + i + 1) =
      (h ++ (ps.take i).map Call.bit_inout) ++ [Call.bit_inout ps[i]] := by
    have hm : i < (ps.map Call.bit_inout).length := by simpa using hi
    rw [Nat.add_assoc, List.take_append, List.take_succ, List.getElem?_eq_getElem hm,
      List.map_take]
    simp
  rw [e]
  show some (match ((h ++ (ps.take i).map Call.bit_inout) ++ [Call.bit_inout ps[i]]).getLast? with
    | some (Call.bit_inout p) => p &&& 1
    | _ => 0) = _
  rw [List.getLast?_append]
  rfl

/-- C5: round trip through the echo driver.  For every `n ≥ 1` (so for `1 ≤ n ≤ 130`),
every `outstream` and `instream` holding `n` bits, every `set_last_bit` and every
prior content of `instream` and `inval`, after `cable_common_read_stream` bit `i % 32`
of `instream[i / 32]` equals bit `i % 32` of `outstream[i / 32]` for every `i < n`.
The shift is taken with its count reduced modulo 32 (`shiftMasked`); `TMS` is assumed
not to contain the data bit `0x01`. -/
theorem echo_round_trip (C : Consts) (hT : C.TMS % 2 = 0) (outstream instream : List Nat)
    (n : Nat) (set_last_bit : Int) (inval0 : Nat) (h : List Call) (hn : 1 ≤ n)
    (hlen1 : n ≤ 32 * outstream.length) (hlen2 : n ≤ 32 * instream.length) :
    ∃ (e : Int) (ins : List Nat) (tr : List Call),
      cable_common_read_stream shiftMasked C (recorder echo) outstream instream (n : Int)
        set_last_bit inval0 h = some ((e, ins), tr) ∧
      ∀ i, i < n → ∃ w v, ins[i / 32]? = some w ∧ outstream[i / 32]? = some v ∧
        w.testBit (i % 32) = v.testBit (i % 32) := by
  obtain ⟨ins, hr, _, _, hG⟩ := read_stream_recorder shiftMasked C echo outstream instream n
    set_last_bit inval0 h hn hlen1 hlen2
  have hpl := stream_packets_length shiftMasked C outstream n set_last_bit hn
  have hall : ∀ b ∈ sampled echo h
      ((stream_packets shiftMasked C outstream n set_last_bit).map Call.bit_inout), b ≤ 1 := by
    intro b hb
    simp only [sampled, List.mem_map] at hb
    obtain ⟨i, _, rfl⟩ := hb
    exact echo_bit_le _
  have G := hG hall
  refine ⟨_, ins, _, hr, ?_⟩
  intro i hi
  obtain ⟨w, hw, hb⟩ := G (i / 32) (by omega)
  have hv : outstream[i / 32]? = some (outstream.getD (i / 32) 0) :=
    getElem?_eq_getD (by omega)
  refine ⟨w, _, hw, hv, ?_⟩
  have hlt : i < (stream_packets shiftMasked C outstream n set_last_bit).length := by omega
  have hd := masked_packets_data C outstream n set_last_bit hn (Or.inr hT) i _
    (List.getElem?_eq_getElem hlt)
  have e : 32 * (i / 32) + i % 32 = i := by omega
  have h32 : i % 32 < 32 := by omega
  rw [hb (i % 32), e, echo_sample h _ i hlt, hd, stream_bit_eq outstream i _ hv]
  cases (outstream.getD (i / 32) 0).testBit (i % 32) <;> simp [hi, h32]

/-- Witness of C5: 33 bits, stale `instream`, `set_last_bit = 1`. -/
theorem echo_round_trip_witness :
    ∃ (e : Int) (ins : List Nat) (tr : List Call),
      cable_common_read_stream shiftMasked stdConsts (recorder echo) [0, 1] [7, 7]
        ((33 : Nat) : Int) 1 9 [] = some ((e, ins), tr) ∧
      ∀ i, i < 33 → ∃ w v, ins[i / 32]? = some w ∧ ([0, 1] : List Nat)[i / 32]? = some v ∧
        w.testBit (i % 32) = v.testBit (i % 32) :=
  echo_round_trip stdConsts (by decide) [0, 1] [7, 7] 33 1 9 [] (by decide) (by decide)
    (by decide)

/-- C6: when the driver stores only `0` or `1` through `bit_in`, then after
`cable_common_read_stream` for `n ≥ 1` bits the words `0 .. (n - 1) / 32` of `instream`
do not depend on the prior content (two runs from different buffers agree on them),
bit `i % 32` of word `i / 32` is the `i`-th sampled bit for every `i < n`, and every bit
of the final word above position `(n - 1) % 32` is zero. -/
theorem read_stream_instream_exact (P : ShiftModel) (C : Consts) (R : Responses)
    (outstream ins0 ins0' : List Nat) (n : Nat) (set_last_bit : Int) (inval0 : Nat)
    (h : List Call) (hn : 1 ≤ n) (hlen1 : n ≤ 32 * outstream.length)
    (hlen2 : n ≤ 32 * ins0.length) (hlen3 : n ≤ 32 * ins0'.length)
    (hbit : ∀ h', R.bit h' ≤ 1) :
    ∃ (err : Int) (tr : List Call) (ins ins' : List Nat),
      cable_common_read_stream P C (recorder R) outstream ins0 (n : Int) set_last_bit inval0 h
        = some ((err, ins), tr) ∧
      cable_common_read_stream P C (recorder R) outstream ins0' (n : Int) set_last_bit inval0 h
        = some ((err, ins'), tr) ∧
      tr.length = h.length + n ∧
      (∀ j, j ≤ (n - 1) / 32 → ins[j]? = ins'[j]?) ∧
      (∀ i, i < n → ∃ w, ins[i / 32]? = some w ∧
        w.testBit (i % 32) = decide (R.bit (tr.take (h.length + i + 1)) = 1)) ∧
      (∃ w, ins[(n - 1) / 32]? = some w ∧ ∀ b, (n - 1) % 32 < b → w.testBit b = false) := by
  obtain ⟨ins, hr, _, _, hG⟩ :=
    read_stream_recorder P C R outstream ins0 n set_last_bit inval0 h hn hlen1 hlen2
  obtain ⟨ins', hr', _, _, hG'⟩ :=
    read_stream_recorder P C R outstream ins0' n set_last_bit inval0 h hn hlen1 hlen3
  have hpl := stream_packets_length P C outstream n set_last_bit hn
  have hall : ∀ b ∈ sampled R h
      ((stream_packets P C outstream n set_last_bit).map Call.bit_inout), b ≤ 1 := by
    intro b hb
    simp only [sampled, List.mem_map] at hb
    obtain ⟨i, _, rfl⟩ := hb
    exact hbit _
  have G := hG hall
  have G' := hG' hall
  refine ⟨_, _, ins, ins', hr, hr', by simp [hpl], ?_, ?_, ?_⟩
  · intro j hj
    obtain ⟨w, hw, hb⟩ := G j hj
    obtain ⟨w', hw', hb'⟩ := G' j hj
    have : w = w' := Nat.eq_of_testBit_eq (fun b => by rw [hb b, hb' b])
    rw [hw, hw', this]
  · intro i hi
    obtain ⟨w, hw, hb⟩ := G (i / 32) (by omega)
    refine ⟨w, hw, ?_⟩
    rw [hb (i % 32)]
    have e : 32 * (i / 32) + i % 32 = i := by omega
    rw [e, sampled_getElem R h _ i (by simpa [hpl] using hi)]
    have h32 : i % 32 < 32 := by omega
    simp [hi, h32]
  · obtain ⟨w, hw, hb⟩ := G ((n - 1) / 32) (le_refl _)
    refine ⟨w, hw, ?_⟩
    intro b hlt
    rw [hb b]
    have : ¬ (32 * ((n - 1) / 32) + b < n) := by omega
    simp [this]


/-- Witness of C6: 33 bits, two different stale buffers. -/
theorem read_stream_instream_exact_witness :
    ∃ (err : Int) (tr : List Call) (ins ins' : List Nat),
      cable_common_read_stream shiftMasked stdConsts (recorder quiet) [5, 1] [7, 7]
        ((33 : Nat) : Int) 1 0 [] = some ((err, ins), tr) ∧
      cable_common_read_stream shiftMasked stdConsts (recorder quiet) [5, 1] [9, 9, 9]
        ((33 : Nat) : Int) 1 0 [] = some ((err, ins'), tr) ∧
      tr.length = ([] : List Call).length + 33 ∧
      (∀ j, j ≤ (33 - 1) / 32 → ins[j]? = ins'[j]?) ∧
      (∀ i, i < 33 → ∃ w, ins[i / 32]? = some w ∧
        w.testBit (i % 32) =
          decide (quiet.bit (tr.take (([] : List Call).length + i + 1)) = 1)) ∧
      (∃ w, ins[(33 - 1) / 32]? = some w ∧ ∀ b, (33 - 1) % 32 < b → w.testBit b = false) :=
  read_stream_instream_exact shiftMasked stdConsts quiet [5, 1] [7, 7] [9, 9, 9] 33 1 0 []
    (by decide) (by decide) (by decide) (by decide) (fun _ => Nat.zero_le 1)

/-- C7: `cable_flush` on a descriptor without `flush_func` returns `APP_ERR_NONE` and
leaves the driver state untouched (on the recording driver: no call is logged); on a
descriptor with `flush_func` it returns what that function returns (on the recording
driver: exactly one `flush` call is logged and its result code is returned). -/
theorem flush_dispatch {σ : Type} (d : jtag_cable_t σ) (f : σ → Int × σ) (s : σ)
    (R : Responses) (h : List Call) :
    cable_flush { d with flush_func := none } s = (APP_ERR_NONE, s) ∧
    cable_flush { d with flush_func := some f } s = f s ∧
    cable_flush { recorder R with flush_func := none } h = (APP_ERR_NONE, h) ∧
    cable_flush (recorder R) h = (R.ret (h ++ [Call.flush]), h ++ [Call.flush]) :=
  ⟨rfl, rfl, rfl, rfl⟩

theorem single_word_packets (P : ShiftModel) (C : Consts) (w n : Nat) (hn : 1 ≤ n)
    (hn32 : n ≤ 32) :
    stream_packets P C [w] n 0 = (List.range n).map (fun i => (w >>> i) &&& 1) := by
  have hl : last_packet P C [w] n 0 = (w >>> (n - 1)) &&& 1 := by
    have h0 : (n - 1) / 32 = 0 := by omega
    have hs : P.shr w ((n : Int) - 1) = w >>> (n - 1) := by
      rw [P.shr_def _ _ (by omega) (by omega)]
      congr 1
      omega
    simp [last_packet, h0, hs]
  have hm : (List.range (n - 1)).map (stream_bit [w]) =
      (List.range (n - 1)).map (fun i => (w >>> i) &&& 1) := by
    apply List.map_congr_left
    intro i hi
    have hi' : i < n - 1 := List.mem_range.mp hi
    have h0 : i / 32 = 0 := by omega
    have h1 : i % 32 = i := by omega
    simp [stream_bit, h0, h1]
  obtain ⟨m, rfl⟩ : ∃ m, n = m + 1 := ⟨n - 1, by omega⟩
  rw [stream_packets, hl, hm, List.range_succ (m)]
  simp

/-- C8: for a single-word stream `[w]` and `1 ≤ n ≤ 32`,
`cable_common_write_stream [w] n 0` makes exactly `n` bit-write calls, with packets
`(w >> i) & 1` for `i = 0 .. n - 1` in order; each packet is `0` or `1`. -/
theorem write_stream_single_word (P : ShiftModel) (C : Consts) (R : Responses) (w n : Nat)
    (h : List Call) (hn : 1 ≤ n) (hn32 : n ≤ 32) :
    ∃ err : Int, cable_common_write_stream P C (recorder R) [w] (n : Int) 0 h =
        some (err, h ++ (List.range n).map (fun i => Call.bit_out ((w >>> i) &&& 1))) ∧
      ∀ i, (w >>> i) &&& 1 ≤ 1 := by
  have e := write_stream_recorder P C R [w] n 0 h hn (by simp; omega)
  rw [single_word_packets P C w n hn hn32, List.map_map] at e
  exact ⟨_, e, fun i => Nat.and_le_right⟩

/-- Witness of C8: `w = 0xABCD`, `n = 16`. -/
theorem write_stream_single_word_witness :
    ∃ err : Int, cable_common_write_stream shiftMasked stdConsts (recorder quiet) [0xABCD]
          ((16 : Nat) : Int) 0 [] =
        some (err, [] ++ (List.range 16).map (fun i => Call.bit_out ((0xABCD >>> i) &&& 1))) ∧
      ∀ i, (0xABCD >>> i) &&& 1 ≤ 1 :=
  write_stream_single_word shiftMasked stdConsts quiet 0xABCD 16 [] (by decide) (by decide)

theorem foldl_lor_zero (l : List Int) (hl : ∀ x ∈ l, x = 0) : l.foldl Int.lor 0 = 0 := by
  induction l with
  | nil => rfl
  | cons a l ih =>
    have ha : a = 0 := hl a (by simp)
    subst ha
    simp only [List.foldl_cons]
    have : Int.lor 0 0 = 0 := rfl
    rw [this]
    exact ih (fun x hx => hl x (by simp [hx]))

/-- C9: whatever result codes the bit-level calls return, both stream operations make
the same `n` calls, with the same packets, as against the driver whose calls all
succeed, and each returns the `|`-fold of the `n` result codes (the one of call `i`
is `R.ret` of the history up to and including that call). -/
theorem stream_no_short_circuit (P : ShiftModel) (C : Consts) (R : Responses)
    (stream ins0 : List Nat) (n : Nat) (set_last_bit : Int) (inval0 : Nat) (h : List Call)
    (hn : 1 ≤ n) (hlen1 : n ≤ 32 * stream.length) (hlen2 : n ≤ 32 * ins0.length) :
    ∃ (ps : List Nat) (ins ins' : List Nat), ps.length = n ∧
      cable_common_write_stream P C (recorder R) stream (n : Int) set_last_bit h =
        some (((List.range n).map
            (fun i => R.ret (h ++ (ps.map Call.bit_out).take (i + 1)))).foldl Int.lor 0,
          h ++ ps.map Call.bit_out) ∧
      cable_common_write_stream P C (recorder { ret := fun _ => 0, bit := R.bit }) stream
          (n : Int) set_last_bit h = some (0, h ++ ps.map Call.bit_out) ∧
      cable_common_read_stream P C (recorder R) stream ins0 (n : Int) set_last_bit inval0 h =
        some ((((List.range n).map
            (fun i => R.ret (h ++ (ps.map Call.bit_inout).take (i + 1)))).foldl Int.lor 0,
          ins), h ++ ps.map Call.bit_inout) ∧
      cable_common_read_stream P C (recorder { ret := fun _ => 0, bit := R.bit }) stream ins0
          (n : Int) set_last_bit inval0 h = some ((0, ins'), h ++ ps.map Call.bit_inout) := by
  have hpl := stream_packets_length P C stream n set_last_bit hn
  obtain ⟨ins, hr, _⟩ :=
    read_stream_recorder P C R stream ins0 n set_last_bit inval0 h hn hlen1 hlen2
  obtain ⟨ins', hr', _⟩ :=
    read_stream_recorder P C { ret := fun _ => 0, bit := R.bit } stream ins0 n set_last_bit
      inval0 h hn hlen1 hlen2
  have hw := write_stream_recorder P C R stream n set_last_bit h hn hlen1
  have hw' := write_stream_recorder P C { ret := fun _ => 0, bit := R.bit } stream n
    set_last_bit h hn hlen1
  have z : ∀ calls : List Call,
      (ret_codes { ret := fun _ => 0, bit := R.bit } h calls).foldl Int.lor 0 = 0 := by
    intro calls
    apply foldl_lor_zero
    intro x hx
    simp only [ret_codes, List.mem_map] at hx
    obtain ⟨i, _, rfl⟩ := hx
    rfl
  rw [z] at hr' hw'
  simp only [ret_codes, List.length_map, hpl] at hr hw
  exact ⟨stream_packets P C stream n set_last_bit, ins, ins', hpl, hw, hw', hr, hr'⟩

/-- Witness of C9: 33 bits against the echo driver. -/
theorem stream_no_short_circuit_witness :
    ∃ (ps : List Nat) (ins ins' : List Nat), ps.length = 33 ∧
      cable_common_write_stream shiftMasked stdConsts (recorder echo) [5, 1] ((33 : Nat) : Int)
          1 [] =
        some (((List.range 33).map
            (fun i => echo.ret ([] ++ (ps.map Call.bit_out).take (i + 1)))).foldl Int.lor 0,
          [] ++ ps.map Call.bit_out) ∧
      cable_common_write_stream shiftMasked stdConsts
          (recorder { ret := fun _ => 0, bit := echo.bit }) [5, 1]
          ((33 : Nat) : Int) 1 [] = some (0, [] ++ ps.map Call.bit_out) ∧
      cable_common_read_stream shiftMasked stdConsts (recorder echo) [5, 1] [7, 7]
          ((33 : Nat) : Int) 1 0 [] =
        some ((((List.range 33).map
            (fun i => echo.ret ([] ++ (ps.map Call.bit_inout).take (i + 1)))).foldl Int.lor 0,
          ins), [] ++ ps.map Call.bit_inout) ∧
      cable_common_read_stream shiftMasked stdConsts
          (recorder { ret := fun _ => 0, bit := echo.bit }) [5, 1] [7, 7]
          ((33 : Nat) : Int) 1 0 [] = some ((0, ins'), [] ++ ps.map Call.bit_inout) :=
  stream_no_short_circuit shiftMasked stdConsts echo [5, 1] [7, 7] 33 1 0 [] (by decide)
    (by decide) (by decide)

theorem flag_data_lt (C : Consts) (packet : Nat) : flag_data C packet < 256 := by
  unfold flag_data
  have h1 : C.TRST_BIT % 256 < 256 := Nat.mod_lt _ (by decide)
  split_ifs <;> first
    | exact Nat.mod_lt _ (by decide)
    | exact lt_of_le_of_lt Nat.and_le_left (Nat.mod_lt _ (by decide))

/-- C10: `cable_common_read_write_bit` emits the same two words as
`cable_common_write_bit`, in the same order: `w` with the clock bit clear through
`out_func`, then `w ||| TCLK_BIT`, through `inout_func` instead of `out_func`; each
function returns the `|` of the result codes of its two driver calls.  Assumes
`TCLK_BIT` is a single bit of the byte distinct from the single bits `TDI_BIT`,
`TMS_BIT`, `TRST_BIT`. -/
theorem read_write_bit_mirrors_write_bit (C : Consts) (hc : IsByteBit C.TCLK_BIT)
    (hd : IsByteBit C.TDI_BIT) (hm : IsByteBit C.TMS_BIT) (hr : IsByteBit C.TRST_BIT)
    (hcd : C.TCLK_BIT ≠ C.TDI_BIT) (hcm : C.TCLK_BIT ≠ C.TMS_BIT)
    (hcr : C.TCLK_BIT ≠ C.TRST_BIT) (R : Responses) (packet bit_in : Nat) (h : List Call) :
    ∃ w, w &&& C.TCLK_BIT = 0 ∧
      cable_common_write_bit C (recorder R) packet h =
        (Int.lor (R.ret (h ++ [Call.out w]))
            (R.ret (h ++ [Call.out w, Call.out (w ||| C.TCLK_BIT)])),
          h ++ [Call.out w, Call.out (w ||| C.TCLK_BIT)]) ∧
      cable_common_read_write_bit C (recorder R) packet bit_in h =
        ((Int.lor (R.ret (h ++ [Call.out w]))
            (R.ret (h ++ [Call.out w, Call.inout (w ||| C.TCLK_BIT)])),
          R.bit (h ++ [Call.out w, Call.inout (w ||| C.TCLK_BIT)])),
          h ++ [Call.out w, Call.inout (w ||| C.TCLK_BIT)]) := by
  obtain ⟨h1, h2, _⟩ := flag_data_clock C hc hd hm hr hcd hcm hcr packet
  refine ⟨flag_data C packet, h1, ?_, ?_⟩
  · rw [write_bit_unfold, h2]
    simp [recorder, APP_ERR_NONE, int_zero_lor]
  · rw [read_write_bit_unfold, h2]
    simp [recorder, APP_ERR_NONE, int_zero_lor]

/-- Witness of C10: packet `TDO | TMS`. -/
theorem read_write_bit_mirrors_write_bit_witness :
    ∃ w, w &&& stdConsts.TCLK_BIT = 0 ∧
      cable_common_write_bit stdConsts (recorder echo) 3 [] =
        (Int.lor (echo.ret ([] ++ [Call.out w]))
            (echo.ret ([] ++ [Call.out w, Call.out (w ||| stdConsts.TCLK_BIT)])),
          [] ++ [Call.out w, Call.out (w ||| stdConsts.TCLK_BIT)]) ∧
      cable_common_read_write_bit stdConsts (recorder echo) 3 0 [] =
        ((Int.lor (echo.ret ([] ++ [Call.out w]))
            (echo.ret ([] ++ [Call.out w, Call.inout (w ||| stdConsts.TCLK_BIT)])),
          echo.bit ([] ++ [Call.out w, Call.inout (w ||| stdConsts.TCLK_BIT)])),
          [] ++ [Call.out w, Call.inout (w ||| stdConsts.TCLK_BIT)]) :=
  read_write_bit_mirrors_write_bit stdConsts (by decide) (by decide) (by decide) (by decide)
    (by decide) (by decide) (by decide) echo 3 0 []

/-! ## Result codes, and the generic bit operations under the stream functions -/

theorem nat_or_eq_zero (m n : Nat) : m ||| n = 0 ↔ m = 0 ∧ n = 0 := by
  constructor
  · intro h
    have hb : ∀ i, (m ||| n).testBit i = false := by intro i; rw [h]; exact Nat.zero_testBit i
    constructor <;>
    · apply Nat.eq_of_testBit_eq
      intro i
      have := hb i
      rw [Nat.testBit_or, Bool.or_eq_false_iff] at this
      simp [this.1, this.2]
  · rintro ⟨rfl, rfl⟩; rfl

theorem int_lor_eq_zero (a b : Int) : Int.lor a b = 0 ↔ a = 0 ∧ b = 0 := by
  cases a with
  | ofNat m =>
    cases b with
    | ofNat n =>
      show ((m ||| n : Nat) : Int) = 0 ↔ _
      rw [Int.natCast_eq_zero, nat_or_eq_zero]
      simp
    | negSucc n =>
      show Int.negSucc _ = 0 ↔ _
      constructor
      · intro h; cases h
      · rintro ⟨_, h⟩; cases h
  | negSucc m =>
    cases b with
    | ofNat n =>
      show Int.negSucc _ = 0 ↔ _
      constructor
      · intro h; cases h
      · rintro ⟨h, _⟩; cases h
    | negSucc n =>
      show Int.negSucc _ = 0 ↔ _
      constructor
      · intro h; cases h
      · rintro ⟨h, _⟩; cases h

theorem foldl_lor_eq_zero (l : List Int) (e : Int) :
    l.foldl Int.lor e = 0 ↔ e = 0 ∧ ∀ x ∈ l, x = 0 := by
  induction l generalizing e with
  | nil => simp
  | cons a l ih =>
    rw [List.foldl_cons, ih, int_lor_eq_zero]
    simp only [List.mem_cons, forall_eq_or_imp]
    tauto

theorem ret_codes_all_zero (R : Responses) (h calls : List Call) :
    (∀ x ∈ ret_codes R h calls, x = 0) ↔
      ∀ i, i < calls.length → R.ret ((h ++ calls).take (h.length + i + 1)) = 0 := by
  have e : ∀ i, (h ++ calls).take (h.length + i + 1) = h ++ calls.take (i + 1) := by
    intro i
    rw [Nat.add_assoc, List.take_append]
  simp only [ret_codes, List.mem_map, List.mem_range, e]
  constructor
  · intro hx i hi
    exact hx _ ⟨i, hi, rfl⟩
  · rintro hx x ⟨i, hi, rfl⟩
    exact hx i hi

theorem signal_calls_length (C : Consts) (second : Nat → Call) (ps : List Nat) :
    (signal_calls C second ps).length = 2 * ps.length := by
  induction ps with
  | nil => rfl
  | cons p ps ih => simp [signal_calls, ih]; omega

theorem signal_calls_getElem (C : Consts) (second : Nat → Call) (ps : List Nat) (i : Nat) :
    (signal_calls C second ps)[i]? =
      (ps[i / 2]?).map (fun p =>
        if i % 2 = 0 then Call.out (flag_data C p)
        else second ((flag_data C p ||| C.TCLK_BIT) % 256)) := by
  induction ps generalizing i with
  | nil => simp [signal_calls]
  | cons p ps ih =>
    match i with
    | 0 => simp [signal_calls]
    | 1 => simp [signal_calls]
    | i + 2 =>
      have h1 : (i + 2) / 2 = i / 2 + 1 := by omega
      have h2 : (i + 2) % 2 = i % 2 := by omega
      simp only [signal_calls, List.getElem?_cons_succ, ih i, h1, h2]

theorem recorder_out (R : Responses) (w : Nat) (h : List Call) :
    (recorder R).out_func w h = (R.ret (h ++ [Call.out w]), h ++ [Call.out w]) := rfl

theorem recorder_inout (R : Responses) (w b : Nat) (h : List Call) :
    (recorder R).inout_func w b h =
      ((R.ret (h ++ [Call.inout w]), R.bit (h ++ [Call.inout w])), h ++ [Call.inout w]) := rfl

theorem feed_out_generic_recorder (C : Consts) (R : Responses) (ps : List Nat) (e : Int)
    (h : List Call) :
    (feed_out (generic_bits C (recorder R)) ps (e, h)).2 = h ++ signal_calls C Call.out ps := by
  induction ps generalizing e h with
  | nil => simp [feed_out, signal_calls]
  | cons p ps ih =>
    rw [feed_out_cons]
    have hw : cable_write_bit (generic_bits C (recorder R)) p h =
        cable_common_write_bit C (recorder R) p h := rfl
    simp only [hw]
    rw [write_bit_unfold]
    simp only [recorder_out]
    rw [ih]
    simp [signal_calls]

theorem feed_inout_generic_recorder (C : Consts) (R : Responses) (ps : List Nat)
    (acc : Fed (List Call)) :
    (feed_inout (generic_bits C (recorder R)) ps acc).drv =
      acc.drv ++ signal_calls C Call.inout ps := by
  induction ps generalizing acc with
  | nil => simp [feed_inout, signal_calls]
  | cons p ps ih =>
    rw [feed_inout_cons]
    have hw : cable_read_write_bit (generic_bits C (recorder R)) p acc.inval acc.drv =
        cable_common_read_write_bit C (recorder R) p acc.inval acc.drv := rfl
    simp only [hw]
    rw [read_write_bit_unfold, ih]
    simp [signal_calls, recorder_out, recorder_inout]

theorem or_bit_and_other (w c b : Nat) (hcb : c ≠ b) :
    (w ||| 2 ^ c) &&& 2 ^ b ≠ 0 ↔ w &&& 2 ^ b ≠ 0 := by
  rw [and_two_pow_ne_zero, and_two_pow_ne_zero, Nat.testBit_or, Nat.testBit_two_pow]
  simp [hcb]

theorem stream_packets_trst (P : ShiftModel) (C : Consts) (stream : List Nat) (n : Nat)
    (set_last_bit : Int) (hM : IsByteBit C.TMS) (hR : IsByteBit C.TRST) (hR1 : C.TRST ≠ 1)
    (hMR : C.TMS ≠ C.TRST) (i p : Nat)
    (hp : (stream_packets P C stream n set_last_bit)[i]? = some p) :
    p &&& C.TRST = 0 := by
  obtain ⟨m, _, em⟩ := hM.exists_pow
  obtain ⟨r, _, er⟩ := hR.exists_pow
  have hr0 : r ≠ 0 := by
    rintro rfl
    exact hR1 (by simpa using er)
  have hmr : m ≠ r := by rintro rfl; exact hMR (em.trans er.symm)
  rcases stream_packets_getElem P C stream n set_last_bit i p hp with ⟨_, rfl⟩ | ⟨_, rfl⟩
  · rw [er, stream_bit, data_bit_no_flag _ _ hr0]
  · unfold last_packet
    by_cases hs : set_last_bit ≠ 0
    · rw [if_pos hs, em, er]
      apply Nat.eq_of_testBit_eq
      intro j
      rw [Nat.testBit_and, testBit_mod_256, Nat.testBit_or, Nat.testBit_and,
        Nat.zero_testBit, Nat.testBit_two_pow, Nat.testBit_two_pow]
      by_cases hj : r = j
      · subst hj
        have h1 : Nat.testBit 1 r = false := by
          cases hb : Nat.testBit 1 r
          · rfl
          · exact absurd (Nat.testBit_one_eq_true_iff_self_eq_zero.mp hb) hr0
        simp [h1, hmr]
      · simp [hj]
    · rw [if_neg hs, er, data_bit_no_flag _ _ hr0]

theorem write_stream_generic (P : ShiftModel) (C : Consts) (R : Responses)
    (stream : List Nat) (n : Nat) (set_last_bit : Int) (h : List Call) (hn : 1 ≤ n)
    (hlen : n ≤ 32 * stream.length) :
    ∃ e : Int, cable_common_write_stream P C (generic_bits C (recorder R)) stream (n : Int)
        set_last_bit h =
      some (e, h ++ signal_calls C Call.out (stream_packets P C stream n set_last_bit)) := by
  refine ⟨(feed_out (generic_bits C (recorder R)) (stream_packets P C stream n set_last_bit)
    (APP_ERR_NONE, h)).1, ?_⟩
  rw [write_stream_eq_feed P C _ stream n set_last_bit h hn hlen,
    ← feed_out_generic_recorder C R _ APP_ERR_NONE h]

theorem read_stream_generic (P : ShiftModel) (C : Consts) (R : Responses)
    (outstream ins0 : List Nat) (n : Nat) (set_last_bit : Int) (inval0 : Nat) (h : List Call)
    (hn : 1 ≤ n) (hlen1 : n ≤ 32 * outstream.length) (hlen2 : n ≤ 32 * ins0.length) :
    ∃ (e : Int) (ins : List Nat),
      cable_common_read_stream P C (generic_bits C (recorder R)) outstream ins0 (n : Int)
        set_last_bit inval0 h =
      some ((e, ins),
        h ++ signal_calls C Call.inout (stream_packets P C outstream n set_last_bit)) := by
  obtain ⟨ins, hr, _⟩ := read_stream_eq_feed P C (generic_bits C (recorder R)) outstream ins0 n
    set_last_bit inval0 h hn hlen1 hlen2
  rw [feed_inout_generic_recorder] at hr
  exact ⟨_, ins, hr⟩

theorem signal_calls_at (P : ShiftModel) (C : Consts) (second : Nat → Call)
    (stream : List Nat) (n : Nat) (set_last_bit : Int) (hn : 1 ≤ n) (i : Nat)
    (hi : i < 2 * n) :
    ∃ p, (stream_packets P C stream n set_last_bit)[i / 2]? = some p ∧
      (signal_calls C second (stream_packets P C stream n set_last_bit))[i]? =
        some (if i % 2 = 0 then Call.out (flag_data C p)
          else second ((flag_data C p ||| C.TCLK_BIT) % 256)) := by
  have hl := stream_packets_length P C stream n set_last_bit hn
  have hlt : i / 2 < (stream_packets P C stream n set_last_bit).length := by omega
  refine ⟨(stream_packets P C stream n set_last_bit)[i / 2], List.getElem?_eq_getElem hlt, ?_⟩
  rw [signal_calls_getElem, List.getElem?_eq_getElem hlt]
  rfl

/-! ## Further claims -/

/-- C11: after `cable_common_read_write_bit` the byte in `*bit_in` is the one the
byte-inout primitive left there in the clock-high call (the call that follows the
clock-low `out_func` call), whatever result code is returned, so in particular when
the result is `0`.  On the recording driver it is the byte sampled at that call and
does not depend on what `*bit_in` held before. -/
theorem read_write_bit_bit_in {σ : Type} (C : Consts) (d : jtag_cable_t σ) (R : Responses)
    (packet_out bit_in bit_in' : Nat) (s : σ) (h : List Call) :
    (cable_common_read_write_bit C d packet_out bit_in s).1.2 =
      (d.inout_func ((flag_data C packet_out ||| C.TCLK_BIT) % 256) bit_in
        (d.out_func (flag_data C packet_out) s).2).1.2 ∧
    (cable_common_read_write_bit C (recorder R) packet_out bit_in h).1.2 =
      R.bit (h ++ [Call.out (flag_data C packet_out),
        Call.inout ((flag_data C packet_out ||| C.TCLK_BIT) % 256)]) ∧
    (cable_common_read_write_bit C (recorder R) packet_out bit_in' h).1.2 =
      (cable_common_read_write_bit C (recorder R) packet_out bit_in h).1.2 := by
  refine ⟨?_, ?_, ?_⟩
  · rw [read_write_bit_unfold]
  · rw [read_write_bit_unfold]; simp [recorder_out, recorder_inout]
  · rw [read_write_bit_unfold, read_write_bit_unfold]; simp [recorder_out, recorder_inout]

/-- C12, as stated, fails: with `len_bits = 0` on the one-word stream `[0]`, against a
driver whose calls return `5`, one bit-write call is made and `5` is returned. -/
theorem write_stream_zero_len_one_call :
    cable_common_write_stream shiftMasked stdConsts
        (recorder { ret := fun _ => 5, bit := fun _ => 0 }) [0] 0 0 [] =
      some (5, [Call.bit_out 0]) ∧
    cable_common_write_stream shiftMasked stdConsts
        (recorder { ret := fun _ => 5, bit := fun _ => 0 }) [0] 0 0 [] ≠
      some (APP_ERR_NONE, []) := by
  decide

/-- C12, amended: with `len_bits = 0` on a stream of at least one word the loop makes
no pass, but the transfer of the "final" bit is still made: exactly one bit-write
call, whose result code is the value returned. -/
theorem write_stream_zero_len (P : ShiftModel) (C : Consts) (R : Responses)
    (stream : List Nat) (set_last_bit : Int) (h : List Call) (hs : 0 < stream.length) :
    ∃ p, cable_common_write_stream P C (recorder R) stream 0 set_last_bit h =
      some (R.ret (h ++ [Call.bit_out p]), h ++ [Call.bit_out p]) := by
  have h0 : stream[0]? = some (stream.getD 0 0) := getElem?_eq_getD hs
  refine ⟨last_packet P C stream 0 set_last_bit, ?_⟩
  unfold cable_common_write_stream
  have hk : ((0 : Int) - 1).toNat = 0 := by decide
  simp only [hk, write_stream_loop, h0, cable_write_bit_recorder, APP_ERR_NONE, int_zero_lor]
  rfl

/-- Witness of C12 (amended): stream `[6]`, `set_last_bit = 1`. -/
theorem write_stream_zero_len_witness :
    ∃ p, cable_common_write_stream shiftMasked stdConsts (recorder quiet) [6] 0 1 [] =
      some (quiet.ret ([] ++ [Call.bit_out p]), [] ++ [Call.bit_out p]) :=
  write_stream_zero_len shiftMasked stdConsts quiet [6] 1 [] (by decide)

/-- C13: for `n ≥ 1` bits of the same stream, `cable_common_read_stream` passes to the
bit-level read-write operation the same `n` packets `ps`, in the same order, as
`cable_common_write_stream` passes to the bit-level write operation; the packets are
the same for any two drivers (`R'`, `R''`: sampled bits and result codes), any two
prior contents of `instream` and of the local `inval`. -/
theorem read_stream_mirrors_write_stream (P : ShiftModel) (C : Consts) (R R' R'' : Responses)
    (s ins0 ins0' : List Nat) (n : Nat) (set_last_bit : Int) (inval0 inval0' : Nat)
    (h : List Call) (hn : 1 ≤ n) (hlen1 : n ≤ 32 * s.length) (hlen2 : n ≤ 32 * ins0.length)
    (hlen3 : n ≤ 32 * ins0'.length) :
    ∃ (ps : List Nat) (e e' e'' : Int) (ins ins' : List Nat), ps.length = n ∧
      cable_common_write_stream P C (recorder R) s (n : Int) set_last_bit h =
        some (e, h ++ ps.map Call.bit_out) ∧
      cable_common_read_stream P C (recorder R') s ins0 (n : Int) set_last_bit inval0 h =
        some ((e', ins), h ++ ps.map Call.bit_inout) ∧
      cable_common_read_stream P C (recorder R'') s ins0' (n : Int) set_last_bit inval0' h =
        some ((e'', ins'), h ++ ps.map Call.bit_inout) := by
  obtain ⟨ins, hr, _⟩ :=
    read_stream_recorder P C R' s ins0 n set_last_bit inval0 h hn hlen1 hlen2
  obtain ⟨ins', hr', _⟩ :=
    read_stream_recorder P C R'' s ins0' n set_last_bit inval0' h hn hlen1 hlen3
  exact ⟨stream_packets P C s n set_last_bit, _, _, _, ins, ins',
    stream_packets_length P C s n set_last_bit hn,
    write_stream_recorder P C R s n set_last_bit h hn hlen1, hr, hr'⟩

/-- Witness of C13: 40 bits, three different drivers, two stale buffers. -/
theorem read_stream_mirrors_write_stream_witness :
    ∃ (ps : List Nat) (e e' e'' : Int) (ins ins' : List Nat), ps.length = 40 ∧
      cable_common_write_stream shiftMasked stdConsts (recorder quiet) [0xF0F0, 3]
          ((40 : Nat) : Int) 1 [] = some (e, [] ++ ps.map Call.bit_out) ∧
      cable_common_read_stream shiftMasked stdConsts (recorder echo) [0xF0F0, 3] [1, 2]
          ((40 : Nat) : Int) 1 0 [] = some ((e', ins), [] ++ ps.map Call.bit_inout) ∧
      cable_common_read_stream shiftMasked stdConsts
          (recorder { ret := fun _ => 5, bit := fun _ => 1 }) [0xF0F0, 3] [9, 9, 9]
          ((40 : Nat) : Int) 1 7 [] = some ((e'', ins'), [] ++ ps.map Call.bit_inout) :=
  read_stream_mirrors_write_stream shiftMasked stdConsts quiet echo
    { ret := fun _ => 5, bit := fun _ => 1 } [0xF0F0, 3] [1, 2] [9, 9, 9] 40 1 0 7 []
    (by decide) (by decide) (by decide) (by decide)

/-- C14: after any history `h`, the last word emitted by `cable_common_write_bit` and
by `cable_common_read_write_bit` has `TCLK_BIT` set; with the generic bit operations
installed, `cable_common_write_stream` for `n ≥ 1` bits emits exactly `2 * n` words
through `out_func`, the word at position `i` having `TCLK_BIT` set iff `i` is odd
(low, high, ..., ending high).  Assumes `TCLK_BIT` is a single bit of the byte distinct
from the single bits `TDI_BIT`, `TMS_BIT`, `TRST_BIT`. -/
theorem clock_ends_high (P : ShiftModel) (C : Consts) (hc : IsByteBit C.TCLK_BIT)
    (hd : IsByteBit C.TDI_BIT) (hm : IsByteBit C.TMS_BIT) (hr : IsByteBit C.TRST_BIT)
    (hcd : C.TCLK_BIT ≠ C.TDI_BIT) (hcm : C.TCLK_BIT ≠ C.TMS_BIT)
    (hcr : C.TCLK_BIT ≠ C.TRST_BIT) (R : Responses) (stream : List Nat) (n : Nat)
    (set_last_bit : Int) (packet bit_in : Nat) (h : List Call) (hn : 1 ≤ n)
    (hlen : n ≤ 32 * stream.length) :
    (∃ w, (cable_common_write_bit C (recorder R) packet h).2.getLast? = some (Call.out w) ∧
      w &&& C.TCLK_BIT ≠ 0) ∧
    (∃ w, (cable_common_read_write_bit C (recorder R) packet bit_in h).2.getLast? =
        some (Call.inout w) ∧ w &&& C.TCLK_BIT ≠ 0) ∧
    (∃ (e : Int) (calls : List Call), calls.length = 2 * n ∧
      cable_common_write_stream P C (generic_bits C (recorder R)) stream (n : Int)
        set_last_bit h = some (e, h ++ calls) ∧
      ∀ i, i < 2 * n → ∃ w, calls[i]? = some (Call.out w) ∧
        (w &&& C.TCLK_BIT ≠ 0 ↔ i % 2 = 1)) := by
  obtain ⟨c, hc8, ec⟩ := hc.exists_pow
  have hhigh : ∀ p, ((flag_data C p ||| C.TCLK_BIT) % 256) &&& C.TCLK_BIT ≠ 0 := by
    intro p
    rw [ec]
    exact flag_merged _ _ hc8
  have hlow : ∀ p, flag_data C p &&& C.TCLK_BIT = 0 := fun p =>
    (flag_data_clock C hc hd hm hr hcd hcm hcr p).1
  refine ⟨⟨_, ?_, hhigh packet⟩, ⟨_, ?_, hhigh packet⟩, ?_⟩
  · rw [write_bit_unfold]
    simp [recorder_out]
  · rw [read_write_bit_unfold]
    simp [recorder_out, recorder_inout]
  · obtain ⟨e, he⟩ := write_stream_generic P C R stream n set_last_bit h hn hlen
    refine ⟨e, _, ?_, he, ?_⟩
    · rw [signal_calls_length, stream_packets_length P C stream n set_last_bit hn]
    · intro i hi
      obtain ⟨p, _, hcall⟩ := signal_calls_at P C Call.out stream n set_last_bit hn i hi
      by_cases h2 : i % 2 = 0
      · refine ⟨flag_data C p, by rw [hcall, if_pos h2], ?_⟩
        rw [hlow p]
        constructor
        · intro hx; exact absurd rfl hx
        · intro hx; omega
      · refine ⟨(flag_data C p ||| C.TCLK_BIT) % 256, by rw [hcall, if_neg h2], ?_⟩
        constructor
        · intro _; omega
        · intro _; exact hhigh p

/-- Witness of C14: 33 bits. -/
theorem clock_ends_high_witness :
    (∃ w, (cable_common_write_bit stdConsts (recorder quiet) 3 []).2.getLast? =
        some (Call.out w) ∧ w &&& stdConsts.TCLK_BIT ≠ 0) ∧
    (∃ w, (cable_common_read_write_bit stdConsts (recorder quiet) 3 0 []).2.getLast? =
        some (Call.inout w) ∧ w &&& stdConsts.TCLK_BIT ≠ 0) ∧
    (∃ (e : Int) (calls : List Call), calls.length = 2 * 33 ∧
      cable_common_write_stream shiftMasked stdConsts (generic_bits stdConsts (recorder quiet))
        [5, 1] ((33 : Nat) : Int) 1 [] = some (e, [] ++ calls) ∧
      ∀ i, i < 2 * 33 → ∃ w, calls[i]? = some (Call.out w) ∧
        (w &&& stdConsts.TCLK_BIT ≠ 0 ↔ i % 2 = 1)) :=
  clock_ends_high shiftMasked stdConsts (by decide) (by decide) (by decide) (by decide)
    (by decide) (by decide) (by decide) quiet [5, 1] 33 1 3 0 [] (by decide) (by decide)

/-- C15: on buffers of exactly `(n - 1) / 32 + 1` words (`ceil (n / 32)` for `n ≥ 1`),
with every access going through `Option`-returning indexing, both stream functions
return a result for every driver: no read of `stream` / `outstream` and no read or
write of `instream` (the zeroing writes included) uses an index above
`(n - 1) / 32`. -/
theorem stream_index_safety {σ : Type} (P : ShiftModel) (C : Consts) (d : jtag_cable_t σ)
    (stream outstream instream : List Nat) (n : Nat) (set_last_bit : Int) (inval0 : Nat)
    (s : σ) (hn : 1 ≤ n) (hlen1 : stream.length = (n - 1) / 32 + 1)
    (hlen2 : outstream.length = (n - 1) / 32 + 1)
    (hlen3 : instream.length = (n - 1) / 32 + 1) :
    (cable_common_write_stream P C d stream (n : Int) set_last_bit s).isSome = true ∧
    (cable_common_read_stream P C d outstream instream (n : Int) set_last_bit inval0
      s).isSome = true := by
  constructor
  · rw [write_stream_eq_feed P C d stream n set_last_bit s hn (by omega)]
    rfl
  · obtain ⟨ins, hr, _⟩ := read_stream_eq_feed P C d outstream instream n set_last_bit inval0 s
      hn (by omega) (by omega)
    rw [hr]
    rfl

/-- Witness of C15: 65 bits on three-word buffers. -/
theorem stream_index_safety_witness :
    (cable_common_write_stream shiftMasked stdConsts (recorder quiet) [1, 2, 3] ((65 : Nat) : Int)
      1 []).isSome = true ∧
    (cable_common_read_stream shiftMasked stdConsts (recorder quiet) [1, 2, 3] [0, 0, 0]
      ((65 : Nat) : Int) 1 0 []).isSome = true :=
  stream_index_safety shiftMasked stdConsts (recorder quiet) [1, 2, 3] [1, 2, 3] [0, 0, 0] 65 1 0
    [] (by decide) (by decide) (by decide) (by decide)

/-- C16: for `n ≥ 1`, `cable_common_write_stream` and `cable_common_read_stream` are
their loop run for `n - 1` passes followed by the transfer of the final bit.  The
loop ends with `index = (n - 1) / 32` and `bits_this_index = (n - 1) % 32`; the final
packet is extracted from word `index` with shift amount `len_bits - 1` (for every
meaning `P` of an out-of-range shift), while the final sampled bit is stored at
`bits_this_index`.  The shift amount equals `bits_this_index` iff `n ≤ 32`, in which
case the shift is the in-range one by `bits_this_index`; for `n > 32` it exceeds
`bits_this_index` by a positive multiple of 32. -/
theorem loop_exit_shift {σ : Type} (P : ShiftModel) (C : Consts) (d : jtag_cable_t σ)
    (stream outstream ins0 : List Nat) (n : Nat) (set_last_bit : Int) (inval0 : Nat) (s : σ)
    (hn : 1 ≤ n) (hlen1 : n ≤ 32 * stream.length) (hlen2 : n ≤ 32 * outstream.length)
    (hlen3 : n ≤ 32 * ins0.length) :
    (∃ (st : WState σ) (w : Nat),
      write_stream_loop P d stream ((n : Int) - 1).toNat
        { index := 0, bits_this_index := 0, err := APP_ERR_NONE, drv := s } = some st ∧
      st.index = (n - 1) / 32 ∧ st.bits_this_index = (n - 1) % 32 ∧
      stream[st.index]? = some w ∧
      cable_common_write_stream P C d stream (n : Int) set_last_bit s =
        some (Int.lor st.err
            (cable_write_bit d
              (if set_last_bit ≠ 0 then ((P.shr w ((n : Int) - 1) &&& 1) ||| C.TMS) % 256
                else P.shr w ((n : Int) - 1) &&& 1) st.drv).1,
          (cable_write_bit d
              (if set_last_bit ≠ 0 then ((P.shr w ((n : Int) - 1) &&& 1) ||| C.TMS) % 256
                else P.shr w ((n : Int) - 1) &&& 1) st.drv).2) ∧
      ((n : Int) - 1 = (st.bits_this_index : Int) ↔ n ≤ 32) ∧
      (n ≤ 32 → P.shr w ((n : Int) - 1) = w >>> st.bits_this_index) ∧
      (32 < n → ∃ k : Int, 1 ≤ k ∧ (n : Int) - 1 = (st.bits_this_index : Int) + 32 * k)) ∧
    (∃ (rt : RState σ) (v : Nat) (ins : List Nat),
      read_stream_loop P d outstream ((n : Int) - 1).toNat
        { index := 0, bits_this_index := 0, inval := inval0, err := APP_ERR_NONE,
          instream := ins0.set 0 0, drv := s } = some rt ∧
      rt.index = (n - 1) / 32 ∧ rt.bits_this_index = (n - 1) % 32 ∧
      outstream[rt.index]? = some v ∧
      or_into rt.instream rt.index
        (cable_read_write_bit d
          (if set_last_bit ≠ 0 then ((P.shr v ((n : Int) - 1) &&& 1) ||| C.TMS) % 256
            else P.shr v ((n : Int) - 1) &&& 1) rt.inval rt.drv).1.2
        rt.bits_this_index = some ins ∧
      cable_common_read_stream P C d outstream ins0 (n : Int) set_last_bit inval0 s =
        some ((Int.lor rt.err
            (cable_read_write_bit d
              (if set_last_bit ≠ 0 then ((P.shr v ((n : Int) - 1) &&& 1) ||| C.TMS) % 256
                else P.shr v ((n : Int) - 1) &&& 1) rt.inval rt.drv).1.1, ins),
          (cable_read_write_bit d
              (if set_last_bit ≠ 0 then ((P.shr v ((n : Int) - 1) &&& 1) ||| C.TMS) % 256
                else P.shr v ((n : Int) - 1) &&& 1) rt.inval rt.drv).2) ∧
      ((n : Int) - 1 = (rt.bits_this_index : Int) ↔ n ≤ 32) ∧
      (n ≤ 32 → P.shr v ((n : Int) - 1) = v >>> rt.bits_this_index) ∧
      (32 < n → ∃ k : Int, 1 ≤ k ∧ (n : Int) - 1 = (rt.bits_this_index : Int) + 32 * k)) := by
  have hk : ((n : Int) - 1).toNat = n - 1 := by omega
  have a1 : (n : Int) - 1 = (((n - 1) % 32 : Nat) : Int) ↔ n ≤ 32 := by omega
  have a2 : ∀ x : Nat, n ≤ 32 → P.shr x ((n : Int) - 1) = x >>> ((n - 1) % 32) := by
    intro x h32
    rw [P.shr_def x _ (by omega) (by omega)]
    congr 1
    omega
  have a3 : 32 < n → ∃ k : Int, 1 ≤ k ∧ (n : Int) - 1 = (((n - 1) % 32 : Nat) : Int) + 32 * k :=
    fun _ => ⟨(((n - 1) / 32 : Nat) : Int), by omega, by omega⟩
  simp only [hk]
  constructor
  · have hi : (n - 1) / 32 < stream.length := by omega
    have hw := getElem?_eq_getD (l := stream) hi
    have hloop := write_stream_loop_eq P d stream s (n - 1) (by omega)
    refine ⟨_, stream.getD ((n - 1) / 32) 0, hloop, rfl, rfl, hw, ?_, a1, a2 _, a3⟩
    unfold cable_common_write_stream
    rw [hk, hloop]
    simp only [hw]
  · obtain ⟨ins, hloop, hl, _⟩ :=
      read_stream_loop_inv P d outstream ins0 inval0 s (n - 1) (by omega) (by omega)
    have h0 : 0 < ins0.length := by omega
    have hi1 : (n - 1) / 32 < outstream.length := by omega
    have hi2 : (n - 1) / 32 < ins.length := by omega
    have hv := getElem?_eq_getD (l := outstream) hi1
    have hw := getElem?_eq_getD (l := ins) hi2
    generalize feed_inout d ((List.range (n - 1)).map (stream_bit outstream))
      ⟨APP_ERR_NONE, inval0, [], s⟩ = F at hloop
    refine ⟨_, outstream.getD ((n - 1) / 32) 0,
      ins.set ((n - 1) / 32) (ins.getD ((n - 1) / 32) 0 |||
        ((cable_read_write_bit d (last_packet P C outstream n set_last_bit) F.inval
          F.drv).1.2 <<< ((n - 1) % 32)) % 2 ^ 32),
      hloop, rfl, rfl, hv, ?_, ?_, a1, a2 _, a3⟩
    · simp only [or_into, hw, store, hi2, if_true]
      rfl
    · unfold cable_common_read_stream
      simp only [store, h0, if_true, hk, hloop, hv, or_into, hw, hi2]
      rfl


/-- Witness of C16: 40 bits, `set_last_bit = 1`. -/
theorem loop_exit_shift_witness :
    (∃ (st : WState (List Call)) (w : Nat),
      write_stream_loop shiftMasked (recorder quiet) [1, 2] (((40 : Nat) : Int) - 1).toNat
        { index := 0, bits_this_index := 0, err := APP_ERR_NONE, drv := ([] : List Call) } = some st ∧
      st.index = (40 - 1) / 32 ∧ st.bits_this_index = (40 - 1) % 32 ∧
      [1, 2][st.index]? = some w ∧
      cable_common_write_stream shiftMasked stdConsts (recorder quiet) [1, 2] ((40 : Nat) : Int) (1 : Int) ([] : List Call) =
        some (Int.lor st.err
            (cable_write_bit (recorder quiet)
              (if (1 : Int) ≠ 0 then ((shiftMasked.shr w (((40 : Nat) : Int) - 1) &&& 1) ||| stdConsts.TMS) % 256
                else shiftMasked.shr w (((40 : Nat) : Int) - 1) &&& 1) st.drv).1,
          (cable_write_bit (recorder quiet)
              (if (1 : Int) ≠ 0 then ((shiftMasked.shr w (((40 : Nat) : Int) - 1) &&& 1) ||| stdConsts.TMS) % 256
                else shiftMasked.shr w (((40 : Nat) : Int) - 1) &&& 1) st.drv).2) ∧
      (((40 : Nat) : Int) - 1 = (st.bits_this_index : Int) ↔ 40 ≤ 32) ∧
      (40 ≤ 32 → shiftMasked.shr w (((40 : Nat) : Int) - 1) = w >>> st.bits_this_index) ∧
      (32 < 40 → ∃ k : Int, 1 ≤ k ∧ ((40 : Nat) : Int) - 1 = (st.bits_this_index : Int) + 32 * k)) ∧
    (∃ (rt : RState (List Call)) (v : Nat) (ins : List Nat),
      read_stream_loop shiftMasked (recorder quiet) [1, 2] (((40 : Nat) : Int) - 1).toNat
        { index := 0, bits_this_index := 0, inval := 0, err := APP_ERR_NONE,
          instream := [7, 7].set 0 0, drv := ([] : List Call) } = some rt ∧
      rt.index = (40 - 1) / 32 ∧ rt.bits_this_index = (40 - 1) % 32 ∧
      [1, 2][rt.index]? = some v ∧
      or_into rt.instream rt.index
        (cable_read_write_bit (recorder quiet)
          (if (1 : Int) ≠ 0 then ((shiftMasked.shr v (((40 : Nat) : Int) - 1) &&& 1) ||| stdConsts.TMS) % 256
            else shiftMasked.shr v (((40 : Nat) : Int) - 1) &&& 1) rt.inval rt.drv).1.2
        rt.bits_this_index = some ins ∧
      cable_common_read_stream shiftMasked stdConsts (recorder quiet) [1, 2] [7, 7] ((40 : Nat) : Int) (1 : Int) 0 ([] : List Call) =
        some ((Int.lor rt.err
            (cable_read_write_bit (recorder quiet)
              (if (1 : Int) ≠ 0 then ((shiftMasked.shr v (((40 : Nat) : Int) - 1) &&& 1) ||| stdConsts.TMS) % 256
                else shiftMasked.shr v (((40 : Nat) : Int) - 1) &&& 1) rt.inval rt.drv).1.1, ins),
          (cable_read_write_bit (recorder quiet)
              (if (1 : Int) ≠ 0 then ((shiftMasked.shr v (((40 : Nat) : Int) - 1) &&& 1) ||| stdConsts.TMS) % 256
                else shiftMasked.shr v (((40 : Nat) : Int) - 1) &&& 1) rt.inval rt.drv).2) ∧
      (((40 : Nat) : Int) - 1 = (rt.bits_this_index : Int) ↔ 40 ≤ 32) ∧
      (40 ≤ 32 → shiftMasked.shr v (((40 : Nat) : Int) - 1) = v >>> rt.bits_this_index) ∧
      (32 < 40 → ∃ k : Int, 1 ≤ k ∧ ((40 : Nat) : Int) - 1 = (rt.bits_this_index : Int) + 32 * k)) :=
  loop_exit_shift shiftMasked stdConsts (recorder quiet) [1, 2] [1, 2] [7, 7] 40 1 0 []
    (by decide) (by decide) (by decide) (by decide)

/-- C17: for `n ≥ 1`, `cable_common_write_stream` and `cable_common_read_stream` make
`n` bit-level calls and return `0` iff every one of them returned `0` (the code of
call `i` is `R.ret` of the history up to and including it); and
`cable_common_write_bit` returns `0` iff both of its `out_func` calls returned `0`. -/
theorem success_iff_all_succeed (P : ShiftModel) (C : Consts) (R : Responses)
    (stream ins0 : List Nat) (n : Nat) (set_last_bit : Int) (inval0 packet : Nat)
    (h : List Call) (hn : 1 ≤ n) (hlen1 : n ≤ 32 * stream.length)
    (hlen2 : n ≤ 32 * ins0.length) :
    (∃ (e : Int) (calls : List Call), calls.length = n ∧
      cable_common_write_stream P C (recorder R) stream (n : Int) set_last_bit h =
        some (e, h ++ calls) ∧
      (e = 0 ↔ ∀ i, i < n → R.ret ((h ++ calls).take (h.length + i + 1)) = 0)) ∧
    (∃ (e : Int) (ins : List Nat) (calls : List Call), calls.length = n ∧
      cable_common_read_stream P C (recorder R) stream ins0 (n : Int) set_last_bit inval0 h =
        some ((e, ins), h ++ calls) ∧
      (e = 0 ↔ ∀ i, i < n → R.ret ((h ++ calls).take (h.length + i + 1)) = 0)) ∧
    (∃ w w', (cable_common_write_bit C (recorder R) packet h).2 =
        h ++ [Call.out w, Call.out w'] ∧
      ((cable_common_write_bit C (recorder R) packet h).1 = 0 ↔
        R.ret (h ++ [Call.out w]) = 0 ∧ R.ret (h ++ [Call.out w, Call.out w']) = 0)) := by
  have hpl := stream_packets_length P C stream n set_last_bit hn
  refine ⟨?_, ?_, ?_⟩
  · refine ⟨_, _, ?_, write_stream_recorder P C R stream n set_last_bit h hn hlen1, ?_⟩
    · simp [hpl]
    · rw [foldl_lor_eq_zero, ret_codes_all_zero]
      simp [hpl]
  · obtain ⟨ins, hr, _⟩ :=
      read_stream_recorder P C R stream ins0 n set_last_bit inval0 h hn hlen1 hlen2
    refine ⟨_, ins, _, ?_, hr, ?_⟩
    · simp [hpl]
    · rw [foldl_lor_eq_zero, ret_codes_all_zero]
      simp [hpl]
  · refine ⟨flag_data C packet, (flag_data C packet ||| C.TCLK_BIT) % 256, ?_, ?_⟩
    · rw [write_bit_unfold]; simp [recorder]
    · rw [write_bit_unfold]
      simp [recorder, APP_ERR_NONE, int_zero_lor, int_lor_eq_zero]

/-- Witness of C17: 33 bits against the echo driver. -/
theorem success_iff_all_succeed_witness :
    (∃ (e : Int) (calls : List Call), calls.length = 33 ∧
      cable_common_write_stream shiftMasked stdConsts (recorder echo) [5, 1] ((33 : Nat) : Int)
        1 [] = some (e, [] ++ calls) ∧
      (e = 0 ↔ ∀ i, i < 33 →
        echo.ret (([] ++ calls).take (([] : List Call).length + i + 1)) = 0)) ∧
    (∃ (e : Int) (ins : List Nat) (calls : List Call), calls.length = 33 ∧
      cable_common_read_stream shiftMasked stdConsts (recorder echo) [5, 1] [7, 7]
        ((33 : Nat) : Int) 1 0 [] = some ((e, ins), [] ++ calls) ∧
      (e = 0 ↔ ∀ i, i < 33 →
        echo.ret (([] ++ calls).take (([] : List Call).length + i + 1)) = 0)) ∧
    (∃ w w', (cable_common_write_bit stdConsts (recorder echo) 3 []).2 =
        [] ++ [Call.out w, Call.out w'] ∧
      ((cable_common_write_bit stdConsts (recorder echo) 3 []).1 = 0 ↔
        echo.ret ([] ++ [Call.out w]) = 0 ∧ echo.ret ([] ++ [Call.out w, Call.out w']) = 0)) :=
  success_iff_all_succeed shiftMasked stdConsts echo [5, 1] [7, 7] 33 1 0 3 [] (by decide)
    (by decide) (by decide)

/-- C18: with the generic bit operations installed, every one of the `2 * n` words
that `cable_common_write_stream` and `cable_common_read_stream` emit for `n ≥ 1` bits
has `TRST_BIT` set, and the word at position `i` has `TMS_BIT` set iff it belongs to
the final bit (`i / 2 = n - 1`) and `set_last_bit ≠ 0`.  Assumes distinct single
Signal-Word bits and that `TMS`, `TRST` are distinct single flag bits other than the
data flag `0x01`. -/
theorem generic_path_keeps_reset_inactive (P : ShiftModel) (C : Consts) (hC : SignalBits C)
    (hM : IsByteBit C.TMS) (hR : IsByteBit C.TRST) (hM1 : C.TMS ≠ 1) (hR1 : C.TRST ≠ 1)
    (hMR : C.TMS ≠ C.TRST) (R : Responses) (stream ins0 : List Nat) (n : Nat)
    (set_last_bit : Int) (inval0 : Nat) (h : List Call) (hn : 1 ≤ n)
    (hlen1 : n ≤ 32 * stream.length) (hlen2 : n ≤ 32 * ins0.length) :
    (∃ (e : Int) (calls : List Call), calls.length = 2 * n ∧
      cable_common_write_stream P C (generic_bits C (recorder R)) stream (n : Int)
        set_last_bit h = some (e, h ++ calls) ∧
      ∀ i, i < 2 * n → ∃ w, calls[i]? = some (Call.out w) ∧ w &&& C.TRST_BIT ≠ 0 ∧
        (w &&& C.TMS_BIT ≠ 0 ↔ (i / 2 = n - 1 ∧ set_last_bit ≠ 0))) ∧
    (∃ (e : Int) (ins : List Nat) (calls : List Call), calls.length = 2 * n ∧
      cable_common_read_stream P C (generic_bits C (recorder R)) stream ins0 (n : Int)
        set_last_bit inval0 h = some ((e, ins), h ++ calls) ∧
      ∀ i, i < 2 * n → ∃ w, (calls[i]? = some (Call.out w) ∨ calls[i]? = some (Call.inout w)) ∧
        w &&& C.TRST_BIT ≠ 0 ∧
        (w &&& C.TMS_BIT ≠ 0 ↔ (i / 2 = n - 1 ∧ set_last_bit ≠ 0))) := by
  have hC0 := hC
  obtain ⟨hc, hd, hm, hr, hcd, hcm, hcr, _, hdr, hmr⟩ := hC
  obtain ⟨c, _, ec⟩ := hc.exists_pow
  obtain ⟨m, _, em⟩ := hm.exists_pow
  obtain ⟨r, _, er⟩ := hr.exists_pow
  have hcm' : c ≠ m := by rintro rfl; exact hcm (ec.trans em.symm)
  have hcr' : c ≠ r := by rintro rfl; exact hcr (ec.trans er.symm)
  have hpl := stream_packets_length P C stream n set_last_bit hn
  -- the two words of the transfer of packet number `k`
  have key : ∀ k p, (stream_packets P C stream n set_last_bit)[k]? = some p →
      (flag_data C p &&& C.TRST_BIT ≠ 0 ∧
        (flag_data C p &&& C.TMS_BIT ≠ 0 ↔ (k = n - 1 ∧ set_last_bit ≠ 0))) ∧
      (((flag_data C p ||| C.TCLK_BIT) % 256) &&& C.TRST_BIT ≠ 0 ∧
        (((flag_data C p ||| C.TCLK_BIT) % 256) &&& C.TMS_BIT ≠ 0 ↔
          (k = n - 1 ∧ set_last_bit ≠ 0))) := by
    intro k p hp
    have e := flag_data_eq_signal_word C hd hm hr hdr hmr p
    obtain ⟨_, b2, b3, _⟩ := signal_word_bits C hC0 p
    have t1 := stream_packets_tms P C stream n set_last_bit hM hM1 k p hp
    have t2 := stream_packets_trst P C stream n set_last_bit hM hR hR1 hMR k p hp
    have low1 : flag_data C p &&& C.TRST_BIT ≠ 0 := by rw [e]; exact b3.mpr t2
    have low2 : flag_data C p &&& C.TMS_BIT ≠ 0 ↔ (k = n - 1 ∧ set_last_bit ≠ 0) := by
      rw [e]; exact b2.trans t1
    have hk := (flag_data_clock C hc hd hm hr hcd hcm hcr p).2.1
    refine ⟨⟨low1, low2⟩, ?_, ?_⟩
    · rw [hk, ec, er, or_bit_and_other _ _ _ hcr', ← er]
      exact low1
    · rw [hk, ec, em, or_bit_and_other _ _ _ hcm', ← em]
      exact low2
  constructor
  · obtain ⟨e, he⟩ := write_stream_generic P C R stream n set_last_bit h hn hlen1
    refine ⟨e, _, ?_, he, ?_⟩
    · rw [signal_calls_length, hpl]
    · intro i hi
      obtain ⟨p, hp, hcall⟩ := signal_calls_at P C Call.out stream n set_last_bit hn i hi
      obtain ⟨⟨l1, l2⟩, h1, h2⟩ := key (i / 2) p hp
      by_cases hpar : i % 2 = 0
      · exact ⟨_, by rw [hcall, if_pos hpar], l1, l2⟩
      · exact ⟨_, by rw [hcall, if_neg hpar], h1, h2⟩
  · obtain ⟨e, ins, he⟩ :=
      read_stream_generic P C R stream ins0 n set_last_bit inval0 h hn hlen1 hlen2
    refine ⟨e, ins, _, ?_, he, ?_⟩
    · rw [signal_calls_length, hpl]
    · intro i hi
      obtain ⟨p, hp, hcall⟩ := signal_calls_at P C Call.inout stream n set_last_bit hn i hi
      obtain ⟨⟨l1, l2⟩, h1, h2⟩ := key (i / 2) p hp
      by_cases hpar : i % 2 = 0
      · exact ⟨_, Or.inl (by rw [hcall, if_pos hpar]), l1, l2⟩
      · exact ⟨_, Or.inr (by rw [hcall, if_neg hpar]), h1, h2⟩

/-- Witness of C18: 33 bits, `set_last_bit = 1`. -/
theorem generic_path_keeps_reset_inactive_witness :
    (∃ (e : Int) (calls : List Call), calls.length = 2 * 33 ∧
      cable_common_write_stream shiftMasked stdConsts (generic_bits stdConsts (recorder quiet))
        [5, 1] ((33 : Nat) : Int) 1 [] = some (e, [] ++ calls) ∧
      ∀ i, i < 2 * 33 → ∃ w, calls[i]? = some (Call.out w) ∧ w &&& stdConsts.TRST_BIT ≠ 0 ∧
        (w &&& stdConsts.TMS_BIT ≠ 0 ↔ (i / 2 = 33 - 1 ∧ (1 : Int) ≠ 0))) ∧
    (∃ (e : Int) (ins : List Nat) (calls : List Call), calls.length = 2 * 33 ∧
      cable_common_read_stream shiftMasked stdConsts (generic_bits stdConsts (recorder quiet))
        [5, 1] [7, 7] ((33 : Nat) : Int) 1 0 [] = some ((e, ins), [] ++ calls) ∧
      ∀ i, i < 2 * 33 → ∃ w, (calls[i]? = some (Call.out w) ∨ calls[i]? = some (Call.inout w)) ∧
        w &&& stdConsts.TRST_BIT ≠ 0 ∧
        (w &&& stdConsts.TMS_BIT ≠ 0 ↔ (i / 2 = 33 - 1 ∧ (1 : Int) ≠ 0))) :=
  generic_path_keeps_reset_inactive shiftMasked stdConsts (by decide) (by decide) (by decide)
    (by decide) (by decide) (by decide) quiet [5, 1] [7, 7] 33 1 0 [] (by decide) (by decide)
    (by decide)

/-- C19: for `n ≥ 1`, `cable_common_read_stream` returns an `instream` of the same
length whose words with index above `(n - 1) / 32` are the ones it was given.
`outstream` is a separate buffer that the function only reads: it is not part of
what the function returns. -/
theorem read_stream_frame {σ : Type} (P : ShiftModel) (C : Consts) (d : jtag_cable_t σ)
    (outstream instream : List Nat) (n : Nat) (set_last_bit : Int) (inval0 : Nat) (s : σ)
    (hn : 1 ≤ n) (hlen1 : n ≤ 32 * outstream.length) (hlen2 : n ≤ 32 * instream.length) :
    ∃ (err : Int) (ins : List Nat) (s' : σ),
      cable_common_read_stream P C d outstream instream (n : Int) set_last_bit inval0 s =
        some ((err, ins), s') ∧
      ins.length = instream.length ∧ ∀ j, (n - 1) / 32 < j → ins[j]? = instream[j]? := by
  obtain ⟨ins, hr, hl, hf, _⟩ :=
    read_stream_eq_feed P C d outstream instream n set_last_bit inval0 s hn hlen1 hlen2
  exact ⟨_, ins, _, hr, hl, hf⟩

/-- Witness of C19: 33 bits into a four-word buffer. -/
theorem read_stream_frame_witness :
    ∃ (err : Int) (ins : List Nat) (s' : List Call),
      cable_common_read_stream shiftMasked stdConsts (recorder echo) [0xFF, 1] [7, 8, 9, 10]
        ((33 : Nat) : Int) 0 0 [] = some ((err, ins), s') ∧
      ins.length = [7, 8, 9, 10].length ∧
      ∀ j, (33 - 1) / 32 < j → ins[j]? = [7, 8, 9, 10][j]? :=
  read_stream_frame shiftMasked stdConsts (recorder echo) [0xFF, 1] [7, 8, 9, 10] 33 0 0 []
    (by decide) (by decide) (by decide)

end CableCommon
